import Mathlib

/-!
# SIFT scale space and orientation histograms

A shallow embedding of `src/scale_space.cpp` and `src/orientations.cpp`.

Conventions of the embedding:

* `std::vector<T>` is `List T`; `v[i]` is `v[i]?`, and an index outside the
  vector makes the whole call return `none` (the C++ behaviour is undefined).
* `float` and `double` values are rationals (`ℚ`): no NaN, no infinity, and a
  zero stands for `+0.0`. Arithmetic on them is exact. The sign bit of a quotient
  (`signbitDiv`), the conversion to `float` in the constructor of a keypoint
  (`toFloat`) and the conversion to `int` (`toInt32`) are modelled where the
  source performs them.
* `int` sums and differences that can leave the 32-bit range wrap (`wrap32`).
* `cv::Mat` is a grid of `rows × cols` samples; reading outside the grid
  returns `none`.
* Functions and constants that live in headers outside the translated files
  (`constants.hpp`, `internal.hpp`, OpenCV, libm) are explicit parameters.
-/

namespace sift

/-! ## Data model -/

/-- Image of the code (`cv::Mat`): a `rows × cols` grid of samples. -/
structure Mat where
  rows : Nat
  cols : Nat
  data : Nat → Nat → ℚ

/-- Sample access `image.at<T>(r, c)`; `none` outside the grid. -/
def Mat.at (m : Mat) (r c : Int) : Option ℚ :=
  if 0 ≤ r ∧ r < m.rows ∧ 0 ≤ c ∧ c < m.cols then some (m.data r.toNat c.toNat) else none

/-- The fields of `cv::KeyPoint`, in the order of the constructor
`KeyPoint(x, y, size, angle, response, octave, class_id)`. -/
structure KeyPoint where
  x : ℚ
  y : ℚ
  size : ℚ
  angle : ℚ
  response : ℚ
  octave : Int
  class_id : Int := -1
deriving DecidableEq

/-- Vector subscript with a signed index: a negative index converts to a huge
`size_t` and is out of range. -/
def vecAt {α : Type} (v : List α) (i : Int) : Option α :=
  if i < 0 then none else v[i.toNat]?

/-- The value a 32-bit `int` holds after an arithmetic result or a conversion `z`
that may leave its range: `z` itself inside `[-2^31, 2^31)`, the two's complement
wrap `(z + 2^31) % 2^32 - 2^31` outside (`wrap32_eq_mod`). -/
def wrap32 (z : Int) : Int :=
  if -(2 ^ 31) ≤ z ∧ z < 2 ^ 31 then z else (z + 2 ^ 31) % 2 ^ 32 - 2 ^ 31

/-! ## `buildGaussianPyramid` (scale_space.cpp, lines 22-40) -/

/-- The effect of `pyr.resize(n)`: keep the first `n` octaves, pad with empty ones. -/
def resize {α : Type} (pyr : List (List α)) (n : Nat) : List (List α) :=
  pyr.take n ++ List.replicate (n - pyr.length) []

/-- Inner loop `for (s = 0; s < GAUSSIAN_PYR_OCTAVE_SIZE; s++)`: `remaining`
iterations are left, `sigma` is the running blur, `octave` is `pyr[o]`. -/
def blurLevels (GaussianBlur : Mat → ℚ → Mat) (K : ℚ) (image_ds : Mat) :
    Nat → ℚ → List Mat → List Mat
  | 0, _, octave => octave
  | remaining + 1, sigma, octave =>
      blurLevels GaussianBlur K image_ds remaining (sigma * K)
        (octave ++ [GaussianBlur image_ds sigma])

/-- Outer loop `for (o = 0; o < nOctaves; o++)`: `remaining` iterations are left. -/
def octaveLoop (GaussianBlur : Mat → ℚ → Mat) (downSample : Mat → Mat)
    (S : Nat) (sigma0 K : ℚ) : Nat → Nat → Mat → List (List Mat) → Option (List (List Mat))
  | 0, _, _, pyr => some pyr
  | remaining + 1, o, image_ds, pyr =>
      match pyr[o]? with
      | none => none
      | some octave =>
          let octave' := blurLevels GaussianBlur K image_ds S sigma0 octave
          match vecAt octave' ((S : Int) - 3) with
          | none => none
          | some src =>
              octaveLoop GaussianBlur downSample S sigma0 K remaining (o + 1)
                (downSample src) (pyr.set o octave')

/-- Embedding of `buildGaussianPyramid(image, pyr, nOctaves)`: the final content of `pyr`.
`GaussianBlur src sigma` is `cv::GaussianBlur` with the fixed kernel size;
`S`, `sigma0`, `K` are `GAUSSIAN_PYR_OCTAVE_SIZE`, `GAUSSIAN_PYR_SIGMA0`, `GAUSSIAN_PYR_K`.
A negative `nOctaves` makes `resize` fail. -/
def buildGaussianPyramid (GaussianBlur : Mat → ℚ → Mat) (downSample : Mat → Mat)
    (S : Nat) (sigma0 K : ℚ) (image : Mat) (pyr : List (List Mat)) (nOctaves : Int) :
    Option (List (List Mat)) :=
  if nOctaves < 0 then none
  else octaveLoop GaussianBlur downSample S sigma0 K nOctaves.toNat 0 image
    (resize pyr nOctaves.toNat)

/-! ## `buildDogPyr` (scale_space.cpp, lines 49-64) -/

/-- One octave of `buildDogPyr`: `std::transform(start, end, start + 1, back_inserter, op)`
with `end = --std::end(octave)` and `op lower upper = upper - lower`. Decrementing
the end iterator of an empty vector is undefined: `none`. -/
def dogOctave (matSub : Mat → Mat → Mat) (octave : List Mat) : Option (List Mat) :=
  if octave.length = 0 then none
  else some (List.zipWith (fun lower upper => matSub upper lower)
    (octave.take (octave.length - 1)) (octave.drop 1))

/-- Embedding of `buildDogPyr(gauss_pyr)`: the range-for over the octaves, one
output octave per input octave. `matSub a b` is the image difference `a - b`. -/
def buildDogPyr (matSub : Mat → Mat → Mat) : List (List Mat) → Option (List (List Mat))
  | [] => some []
  | octave :: rest =>
      match dogOctave matSub octave with
      | none => none
      | some dog =>
          match buildDogPyr matSub rest with
          | none => none
          | some dogs => some (dog :: dogs)

/-! ## `getScaleSpaceExtrema` (scale_space.cpp, lines 73-99) -/

/-- The loop bound `octave_dog.size() - 1`, computed in 64-bit `std::size_t`:
the subtraction wraps to `2^64 - 1` when the size is 0
(`levelBound_eq_mod`: this is `(size + 2^64 - 1) % 2^64`). -/
def levelBound (size : Nat) : Nat := if size = 0 then 2 ^ 64 - 1 else size - 1

/-- The keypoint built by `keypoints.emplace_back(p.first, p.second, octave_sigma,
image, response, octave)`, that is by the constructor `cv::KeyPoint(float x,
float y, float size, float angle, float response, int octave)`: the first five
arguments are converted to `float` (`toFloat`, the rounding of the platform), the
`std::size_t` octave index is converted to `int` (`wrap32`). -/
def mkKeyPoint (toFloat : ℚ → ℚ) (p : Int × Int) (octave_sigma : ℚ) (image : Nat)
    (response : ℚ) (octave : Nat) : KeyPoint :=
  { x := toFloat p.1, y := toFloat p.2, size := toFloat octave_sigma,
    angle := toFloat image, response := toFloat response, octave := wrap32 octave }

/-- Loop `for (const auto &p : points)`: one keypoint per point, the response
read from the centre level. -/
def pointLoop (toFloat : ℚ → ℚ) (centre : Mat) (octave_sigma : ℚ) (image octave : Nat) :
    List (Int × Int) → List KeyPoint → Option (List KeyPoint)
  | [], keypoints => some keypoints
  | p :: points, keypoints =>
      match centre.at p.1 p.2 with
      | none => none
      | some response =>
          pointLoop toFloat centre octave_sigma image octave points
            (keypoints ++ [mkKeyPoint toFloat p octave_sigma image response octave])

/-- Loop `for (std::size_t image = 1; image < octave_dog.size() - 1; image++)`:
`remaining` iterations are left and the next one is for index `image`. -/
def levelLoop (toFloat : ℚ → ℚ) (find_local_extremas : Mat → Mat → Mat → List (Int × Int))
    (octave_dog : List Mat) (octave_sigma : ℚ) (octave : Nat) :
    Nat → Nat → List KeyPoint → Option (List KeyPoint)
  | 0, _, keypoints => some keypoints
  | remaining + 1, image, keypoints =>
      match octave_dog[image - 1]?, octave_dog[image]?, octave_dog[image + 1]? with
      | some below, some centre, some above =>
          match pointLoop toFloat centre octave_sigma image octave
              (find_local_extremas below centre above) keypoints with
          | none => none
          | some keypoints' =>
              levelLoop toFloat find_local_extremas octave_dog octave_sigma octave remaining
                (image + 1) keypoints'
      | _, _, _ => none

/-- Loop `for (std::size_t octave = 0; octave < dog_pyr.size(); octave++)`,
entered at `octave` with the octaves from `octave` on still to visit. The level
loop starts at `image = 1` and runs while `image < levelBound size`, that is
`levelBound size - 1` times. -/
def octaveScan (toFloat : ℚ → ℚ) (compute_octave_sigma : Nat → ℚ)
    (find_local_extremas : Mat → Mat → Mat → List (Int × Int)) :
    Nat → List (List Mat) → List KeyPoint → Option (List KeyPoint)
  | _, [], keypoints => some keypoints
  | octave, octave_dog :: rest, keypoints =>
      match levelLoop toFloat find_local_extremas octave_dog (compute_octave_sigma octave)
          octave (levelBound octave_dog.length - 1) 1 keypoints with
      | none => none
      | some keypoints' =>
          octaveScan toFloat compute_octave_sigma find_local_extremas (octave + 1) rest
            keypoints'

/-- Embedding of `getScaleSpaceExtrema(dog_pyr, keypoints)`: the final content of
`keypoints`. `compute_octave_sigma` and `find_local_extremas` are the functions of
`internal.hpp`; `toFloat` is the conversion to `float` of the platform. -/
def getScaleSpaceExtrema (toFloat : ℚ → ℚ) (compute_octave_sigma : Nat → ℚ)
    (find_local_extremas : Mat → Mat → Mat → List (Int × Int))
    (dog_pyr : List (List Mat)) (keypoints : List KeyPoint) : Option (List KeyPoint) :=
  octaveScan toFloat compute_octave_sigma find_local_extremas 0 dog_pyr keypoints

/-! ## `cleanPoints` (scale_space.cpp, lines 107-118) -/

/-- The loop of `std::remove_if`: `r` is the read position, `w` the write
position; an element that is kept is moved down to `w`. -/
def removeIfLoop {α : Type} (pred : α → Bool) : Nat → List α → Nat → Nat → List α × Nat
  | 0, a, w, _ => (a, w)
  | fuel + 1, a, w, r =>
      match a[r]? with
      | none => (a, w)
      | some v =>
          if pred v then removeIfLoop pred fuel a w (r + 1)
          else removeIfLoop pred fuel (a.set w v) (w + 1) (r + 1)

/-- Algorithm `std::remove_if(first, last, pred)` on the whole vector: the
rearranged vector and the position of the new logical end. -/
def remove_if {α : Type} (pred : α → Bool) (a : List α) : List α × Nat :=
  removeIfLoop pred a.length a 0 0

/-- Embedding of `cleanPoints(image, dog_pyr, keypoints)`: `remove_if` with the
predicate `curv > KP_CURVATURE_THRESHOLD`, then `erase(good_kps_end, end)`.
The contrast test is commented out in the source and absent here. -/
def cleanPoints (compute_keypoint_curvature : List (List Mat) → KeyPoint → ℚ)
    (KP_CURVATURE_THRESHOLD : ℚ) (_image : Mat) (dog_pyr : List (List Mat))
    (keypoints : List KeyPoint) : List KeyPoint :=
  let moved := remove_if
    (fun kp => decide (compute_keypoint_curvature dog_pyr kp > KP_CURVATURE_THRESHOLD))
    keypoints
  moved.1.take moved.2

/-! ## `LazyMat`, finite differences, `Neighbourhood` (orientations.cpp, lines 11-66) -/

/-- Conversion of a floating value to an integer type (`static_cast<int>`, or an
implicit conversion): truncation toward zero. -/
def truncToInt (q : ℚ) : Int := if 0 ≤ q then ⌊q⌋ else ⌈q⌉

/-- Conversion of a `double` or `float` to a 32-bit `int`: truncation toward zero
when the truncated value fits. A value outside the range has no defined
conversion; the conversion instruction of x86-64 then delivers `INT_MIN`, which
is the value taken here. -/
def toInt32 (q : ℚ) : Int :=
  if -(2 ^ 31) - 1 < q ∧ q < 2 ^ 31 then truncToInt q else -(2 ^ 31)

/-- Class `LazyMat<eval_func_t>`: the generator `f` and the two cache vectors. A
generator that reads outside an image has no value (`none`). -/
structure LazyMat where
  f : Int → Int → Option ℚ
  is_computed : List Bool
  values : List ℚ
  rows : Int
  cols : Int

/-- Constructor `LazyMat(f, rows, cols)`: it stores `f`, `rows`, `cols`; the
vectors `is_computed` and `values` are default-constructed, hence empty. -/
def LazyMat.new (f : Int → Int → Option ℚ) (rows cols : Int) : LazyMat :=
  { f := f, is_computed := [], values := [], rows := rows, cols := cols }

/-- Member `LazyMat::at(x, y)`: the value and the matrix with its updated cache. -/
def LazyMat.at (m : LazyMat) (x y : Int) : Option (ℚ × LazyMat) :=
  let index := x * m.cols + y
  match vecAt m.is_computed index with
  | none => none
  | some true =>
      match vecAt m.values index with
      | none => none
      | some v => some (v, m)
  | some false =>
      match m.f x y, vecAt m.values index with
      | some v, some _ =>
          some (v, { m with is_computed := m.is_computed.set index.toNat true,
                            values := m.values.set index.toNat v })
      | _, _ => none

/-- A call of `at` through a reference captured by a closure: only the value is
kept. The cache update of the captured matrix is not tracked; it has no effect
on any value, since a cached entry holds the generator's value and the cache
vectors never change length. -/
def LazyMat.read (m : LazyMat) (x y : Int) : Option ℚ :=
  (m.at x y).map Prod.fst

/-- Function `delta(image, x1, y1, x2, y2)`. -/
def delta (image : Mat) (x1 y1 x2 y2 : Int) : Option ℚ :=
  match image.at x2 y2, image.at x1 y1 with
  | some a, some b => some (a - b)
  | _, _ => none

/-- Function `delta_y(image, x, y)`. -/
def delta_y (image : Mat) (x y : Int) : Option ℚ :=
  let above := if y < (image.rows : Int) - 1 then y + 1 else y
  let below := if y > 0 then 0 else 1
  delta image x above x below

/-- Function `delta_x(image, x, y)`. -/
def delta_x (image : Mat) (x y : Int) : Option ℚ :=
  let after := if x < (image.cols : Int) - 1 then x + 1 else x
  let before := if x > 0 then 0 else 1
  delta image after y before y

/-- Struct `Neighbourhood`. -/
structure Neighbourhood where
  kernel_size : Int
  row_start : Int
  row_end : Int
  col_start : Int
  col_end : Int

/-- Constructor `Neighbourhood(num_rows, num_columns, row, col, scale, min = 5.0)`.
The body declares a local `int kernel_size`, which hides the member of the same
name: the member is never assigned, and `indet` stands for the indeterminate
value it holds. The local is an `int` initialised from the `double`
`std::max(3 * scale, min)` (`toInt32`); the sums and differences of `int` values
are 32-bit (`wrap32`). The increment of an even `kernel_size` cannot leave the
range, and neither can the `+ 1` behind a sum that compared below an `int`. -/
def Neighbourhood.new (indet : Int) (num_rows num_columns row col : Int) (scale : ℚ)
    (min : ℚ := 5) : Neighbourhood :=
  let kernel_size0 : Int := toInt32 (max (3 * scale) min)
  let kernel_size : Int := if kernel_size0.tmod 2 = 0 then kernel_size0 + 1 else kernel_size0
  let kernel_half : Int := kernel_size.tdiv 2
  { kernel_size := indet
    row_start := if row > kernel_half then wrap32 (row - kernel_half) else 0
    row_end := if wrap32 (row + kernel_half) < wrap32 (num_rows - 1)
      then wrap32 (row + kernel_half) + 1 else num_rows
    col_start := if col > kernel_half then wrap32 (col - kernel_half) else 0
    col_end := if wrap32 (col + kernel_half) < wrap32 (num_columns - 1)
      then wrap32 (col + kernel_half) + 1 else num_columns }

/-- The integers `a, a+1, ..., b-1` of a loop `for (int i = a; i < b; i++)`. -/
def intRange (a b : Int) : List Int :=
  (List.range (b - a).toNat).map (fun k => a + (k : Int))

/-! ## Smoothing, magnitude and angle closures (orientations.cpp, lines 74-146) -/

/-- The weight matrix `gauss = gauss_x * gauss_y.t()` of `create_smoothing_func`, for
the `n x 1` kernels `gauss_x = gauss_y = cv::getGaussianKernel(kernel_size, kp.size)`. -/
def gaussWeights (getGaussianKernel : Int → ℚ → Mat) (kernel_size : Int) (sigma : ℚ) : Mat :=
  let gauss_x := getGaussianKernel kernel_size sigma
  let gauss_y := getGaussianKernel kernel_size sigma
  { rows := gauss_x.rows, cols := gauss_y.rows,
    data := fun a b => gauss_x.data a 0 * gauss_y.data b 0 }

/-- A reference to a local object, as seen after the function that owns the local
has returned: the object is destroyed and the reference refers to nothing. -/
def danglingRef {α : Type} (_object : α) : Option α := none

/-- Inner loop over `j` of `apply_gauss`, for a fixed row `i`. `gauss` is what the
captured reference `&gauss` refers to: a read through a reference that refers to
nothing has no value. -/
def smoothRow (grad_magnitudes : LazyMat) (gauss : Option Mat) (area : Neighbourhood)
    (i : Int) : List Int → ℚ → Option ℚ
  | [], value => some value
  | j :: js, value =>
      match grad_magnitudes.read i j,
          gauss.bind (fun g => g.at (i - area.row_start) (j - area.col_start)) with
      | some m, some g => smoothRow grad_magnitudes gauss area i js (value + m * g)
      | _, _ => none

/-- Outer loop over `i` of `apply_gauss`. -/
def smoothRows (grad_magnitudes : LazyMat) (gauss : Option Mat) (area : Neighbourhood) :
    List Int → ℚ → Option ℚ
  | [], value => some value
  | i :: is, value =>
      match smoothRow grad_magnitudes gauss area i (intRange area.col_start area.col_end)
          value with
      | none => none
      | some value' => smoothRows grad_magnitudes gauss area is value'

/-- The closure `apply_gauss`, with the captures `&grad_magnitudes`, `&gauss` and
`scale`. -/
def apply_gauss (indet : Int) (grad_magnitudes : LazyMat) (gauss : Option Mat) (scale : ℚ)
    (row column : Int) : Option ℚ :=
  let area := Neighbourhood.new indet grad_magnitudes.rows grad_magnitudes.cols row column scale
  smoothRows grad_magnitudes gauss area (intRange area.row_start area.row_end) 0

/-- Function `create_smoothing_func(grad_magnitudes, kp, kernel_size)`. It builds the
local matrix `gauss` and returns the closure `apply_gauss`, which captures the
local by reference. The local is destroyed when the function returns, so in
every call of the returned closure the reference `&gauss` is dangling. -/
def create_smoothing_func (getGaussianKernel : Int → ℚ → Mat) (indet : Int)
    (grad_magnitudes : LazyMat) (kp : KeyPoint) (kernel_size : Int) : Int → Int → Option ℚ :=
  let gauss := gaussWeights getGaussianKernel kernel_size kp.size
  apply_gauss indet grad_magnitudes (danglingRef gauss) kp.size

/-- The closure `get_mag` returned by `create_magnitude_func`. -/
def get_mag (hypot : ℚ → ℚ → ℚ) (dx_mat dy_mat : LazyMat) (row column : Int) : Option ℚ :=
  match dx_mat.read row column, dy_mat.read row column with
  | some dx, some dy => some (hypot dx dy)
  | _, _ => none

/-- The constant `M_PI` of `<cmath>`: the double nearest to π, as a rational. -/
def M_PI : ℚ := 884279719003555 / 281474976710656

/-- The result of `std::signbit(dy / dx)` for `dx ≠ 0`. The sign bit of an IEEE
quotient is the exclusive or of the sign bits of its operands, also when the
quotient is a zero: `0.0 / -1.0` is `-0.0`, whose sign bit is set. The operands
are rationals: a zero operand stands for `+0.0`. -/
def signbitDiv (dy dx : ℚ) : Bool := decide (dy < 0) != decide (dx < 0)

/-- The computation of `get_angle` on the two gradient values. `std::signbit(dy)`
is `dy < 0` (a zero `dy` stands for `+0.0`), `std::signbit(dy / dx)` is
`signbitDiv`; `3/2` is the integer quotient the source writes. -/
def angleOf (atan : ℚ → ℚ) (dx dy : ℚ) : ℚ :=
  if dx = 0 then
    (if dy < 0 then M_PI / 2 else (((3 : Int) / 2 : Int) : ℚ) * M_PI) * (180 / M_PI)
  else
    let angle0 := atan (dy / dx) * (180 / M_PI)
    let angle1 := max (-90) (min angle0 90) + 90
    let angle2 := if signbitDiv dy dx = true then angle1 + 180 else angle1
    max 0 (min angle2 359)

/-- The closure `get_angle` returned by `create_angle_func`. -/
def get_angle (atan : ℚ → ℚ) (dx_mat dy_mat : LazyMat) (row column : Int) : Option ℚ :=
  match dx_mat.read row column, dy_mat.read row column with
  | some dx, some dy => some (angleOf atan dx dy)
  | _, _ => none

/-- The bucket index `static_cast<int>(angle / 10)`. -/
def binIndex (angle : ℚ) : Int := truncToInt (angle / 10)

/-! ## `computeOrientationHist` (orientations.cpp, lines 150-223) -/

/-- What `computeOrientationHist` takes from outside the translated files:
`std::atan`, `std::hypot`, `cv::getGaussianKernel`, and the indeterminate value
found in the member `kernel_size` of a `Neighbourhood`. -/
structure Env where
  atan : ℚ → ℚ
  hypot : ℚ → ℚ → ℚ
  getGaussianKernel : Int → ℚ → Mat
  indet : Int

/-- The four vectors `dx`, `dy`, `mags`, `angles` of one octave. -/
structure FieldOctave where
  dx : List LazyMat
  dy : List LazyMat
  mags : List LazyMat
  angles : List LazyMat

/-- The four vectors `dx_pyr`, `dy_pyr`, `mags_pyr`, `angles_pyr`. -/
structure FieldPyramids where
  dx_pyr : List (List LazyMat)
  dy_pyr : List (List LazyMat)
  mags_pyr : List (List LazyMat)
  angles_pyr : List (List LazyMat)

/-- The declaration `dx_pyr(dogs_pyr.size()), dy_pyr(...), mags_pyr(...), angles_pyr(...)`:
each vector is constructed with `n` empty octaves. -/
def FieldPyramids.init (n : Nat) : FieldPyramids :=
  { dx_pyr := List.replicate n [], dy_pyr := List.replicate n [],
    mags_pyr := List.replicate n [], angles_pyr := List.replicate n [] }

/-- Loop `for (auto &dog : dogs)`: one lazy field of each kind is appended per level;
the magnitude and angle closures refer to the `dx` and `dy` fields just appended. -/
def fieldLevels (env : Env) : List Mat → FieldOctave → FieldOctave
  | [], oct => oct
  | dog :: dogs, oct =>
      let dx_back := LazyMat.new (fun x y => delta_x dog x y) dog.rows dog.cols
      let dy_back := LazyMat.new (fun x y => delta_y dog x y) dog.rows dog.cols
      let mag_func := get_mag env.hypot dx_back dy_back
      let angle_func := get_angle env.atan dx_back dy_back
      fieldLevels env dogs
        { dx := oct.dx ++ [dx_back], dy := oct.dy ++ [dy_back],
          mags := oct.mags ++ [LazyMat.new mag_func dog.rows dog.cols],
          angles := oct.angles ++ [LazyMat.new angle_func dog.rows dog.cols] }

/-- Loop `for (auto &dogs : dogs_pyr)`: `emplace_back()` appends a new octave to each
of the four pyramids, and the level loop fills these new last octaves. -/
def fieldOctaves (env : Env) : List (List Mat) → FieldPyramids → FieldPyramids
  | [], pyr => pyr
  | dogs :: rest, pyr =>
      let oct := fieldLevels env dogs { dx := [], dy := [], mags := [], angles := [] }
      fieldOctaves env rest
        { dx_pyr := pyr.dx_pyr ++ [oct.dx], dy_pyr := pyr.dy_pyr ++ [oct.dy],
          mags_pyr := pyr.mags_pyr ++ [oct.mags], angles_pyr := pyr.angles_pyr ++ [oct.angles] }

/-- Inner loop over `j` of the histogram accumulation, for a fixed row `i`. -/
def histRow (i : Int) : List Int → LazyMat → LazyMat → List ℚ →
    Option (LazyMat × LazyMat × List ℚ)
  | [], angles_mat, smoothed_magnitudes, kp_histogram =>
      some (angles_mat, smoothed_magnitudes, kp_histogram)
  | j :: js, angles_mat, smoothed_magnitudes, kp_histogram =>
      match angles_mat.at i j with
      | none => none
      | some (angle, angles_mat') =>
          let index := binIndex angle
          match smoothed_magnitudes.at i j with
          | none => none
          | some (magnitude, smoothed_magnitudes') =>
              match vecAt kp_histogram index with
              | none => none
              | some old =>
                  histRow i js angles_mat' smoothed_magnitudes'
                    (kp_histogram.set index.toNat (old + magnitude))

/-- Outer loop over `i` of the histogram accumulation. -/
def histRows (area_info : Neighbourhood) : List Int → LazyMat → LazyMat → List ℚ →
    Option (LazyMat × LazyMat × List ℚ)
  | [], angles_mat, smoothed_magnitudes, kp_histogram =>
      some (angles_mat, smoothed_magnitudes, kp_histogram)
  | i :: is, angles_mat, smoothed_magnitudes, kp_histogram =>
      match histRow i (intRange area_info.col_start area_info.col_end) angles_mat
          smoothed_magnitudes kp_histogram with
      | none => none
      | some (angles_mat', smoothed_magnitudes', kp_histogram') =>
          histRows area_info is angles_mat' smoothed_magnitudes' kp_histogram'

/-- Body of `for (auto &kp : kps)` once the two fields are looked up: the
histogram of the keypoint and the angle field with its updated cache. -/
def kpHistogram (env : Env) (grad_magnitudes angles_mat : LazyMat) (kp : KeyPoint) :
    Option (LazyMat × List ℚ) :=
  let kp_histogram : List ℚ := List.replicate 36 0
  let area_info := Neighbourhood.new env.indet grad_magnitudes.rows grad_magnitudes.cols
    (toInt32 kp.x) (toInt32 kp.y) kp.size
  let smoothing_func := create_smoothing_func env.getGaussianKernel env.indet grad_magnitudes
    kp area_info.kernel_size
  let smoothed_magnitudes := LazyMat.new smoothing_func
    grad_magnitudes.rows grad_magnitudes.cols
  match histRows area_info (intRange area_info.row_start area_info.row_end) angles_mat
      smoothed_magnitudes kp_histogram with
  | none => none
  | some (angles_mat', _, kp_histogram') => some (angles_mat', kp_histogram')

/-- Loop `for (auto &kp : kps)`: the lookups `mags_pyr[kp.octave][kp.angle]` and
`angles_pyr[kp.octave][kp.angle]`, then the histogram, appended to `histograms`. -/
def kpLoop (env : Env) : List KeyPoint → FieldPyramids → List (List ℚ) →
    Option (List (List ℚ))
  | [], _, histograms => some histograms
  | kp :: kps, pyr, histograms =>
      match vecAt pyr.mags_pyr kp.octave, vecAt pyr.angles_pyr kp.octave with
      | some mags, some angles =>
          match vecAt mags (truncToInt kp.angle), vecAt angles (truncToInt kp.angle) with
          | some grad_magnitudes, some angles_mat =>
              match kpHistogram env grad_magnitudes angles_mat kp with
              | none => none
              | some (angles_mat', kp_histogram) =>
                  let angles' := angles.set (truncToInt kp.angle).toNat angles_mat'
                  kpLoop env kps
                    { pyr with angles_pyr := pyr.angles_pyr.set kp.octave.toNat angles' }
                    (histograms ++ [kp_histogram])
          | _, _ => none
      | _, _ => none

/-- Embedding of `computeOrientationHist(dogs_pyr, kps)`. -/
def computeOrientationHist (env : Env) (dogs_pyr : List (List Mat)) (kps : List KeyPoint) :
    Option (List (List ℚ)) :=
  kpLoop env kps (fieldOctaves env dogs_pyr (FieldPyramids.init dogs_pyr.length)) []

/-- A keypoint is valid for a DoG pyramid when its octave, its level (stored in
`angle`) and its position exist in the pyramid. -/
def validKeyPoint (dogs_pyr : List (List Mat)) (kp : KeyPoint) : Prop :=
  ∃ (oct : List Mat) (dog : Mat), vecAt dogs_pyr kp.octave = some oct ∧
    vecAt oct (truncToInt kp.angle) = some dog ∧
    0 ≤ kp.angle ∧ 0 ≤ kp.x ∧ kp.x < dog.rows ∧ 0 ≤ kp.y ∧ kp.y < dog.cols

/-! ## Reference definitions the claims compare the code with -/

/-- The clamp of the specification: `v` limited to `[lo, hi]`. -/
def clampTo (v lo hi : ℚ) : ℚ := max lo (min v hi)

/-- The angle formula in the words of the specification, for `dx ≠ 0`:
`atan(dy/dx)` in degrees, clamped to `[-90, 90]`, shifted by 90, shifted by a
further 180 if `dy/dx` is negative, clamped to `[0, 359]`. -/
def angleFormula (atan : ℚ → ℚ) (dx dy : ℚ) : ℚ :=
  clampTo (clampTo (atan (dy / dx) * (180 / M_PI)) (-90) 90 + 90
    + (if dy / dx < 0 then 180 else 0)) 0 359

/-- The angle formula for `dx ≠ 0` with the shift decided by the sign bit of the
quotient: `atan(dy/dx)` in degrees, clamped to `[-90, 90]`, shifted by 90, shifted
by a further 180 if `dy/dx` is negative or is the negative zero of `dy = 0`,
`dx < 0`, clamped to `[0, 359]`. -/
def angleFormulaSignBit (atan : ℚ → ℚ) (dx dy : ℚ) : ℚ :=
  clampTo (clampTo (atan (dy / dx) * (180 / M_PI)) (-90) 90 + 90
    + (if dy / dx < 0 ∨ (dy = 0 ∧ dx < 0) then 180 else 0)) 0 359

/-- The base image of octave `o` in the words of the specification: the image
itself for octave 0, then the downsample of level `S - 3` of the octave before. -/
def refBase (blur : Mat → ℚ → Mat) (downSample : Mat → Mat) (S : Nat) (sigma0 K : ℚ)
    (image : Mat) : Nat → Mat
  | 0 => image
  | o + 1 => downSample (blur (refBase blur downSample S sigma0 K image o) (sigma0 * K ^ (S - 3)))

/-- Octave `o` of the reference pyramid: level `i` is the base of the octave
blurred with `sigma0 * K^i`. -/
def refOctave (blur : Mat → ℚ → Mat) (downSample : Mat → Mat) (S : Nat) (sigma0 K : ℚ)
    (image : Mat) (o : Nat) : List Mat :=
  (List.range S).map (fun i => blur (refBase blur downSample S sigma0 K image o) (sigma0 * K ^ i))

/-- The reference pyramid: `nOctaves` octaves of `S` levels. -/
def refPyramid (blur : Mat → ℚ → Mat) (downSample : Mat → Mat) (S : Nat) (sigma0 K : ℚ)
    (image : Mat) (nOctaves : Nat) : List (List Mat) :=
  (List.range nOctaves).map (refOctave blur downSample S sigma0 K image)

/-! ## Index rules of the finite differences -/

/-- The "after" index of `delta_x` / `delta_y` for a coordinate `x` and the bound
the source compares it with: `x < bound - 1 ? x + 1 : x`. -/
def afterIndex (bound x : Int) : Int := if x < bound - 1 then x + 1 else x

/-- The "before" index of `delta_x` / `delta_y`: `x > 0 ? 0 : 1`. -/
def beforeIndex (x : Int) : Int := if x > 0 then 0 else 1

/-- The "after" index in the words of the specification: the next index, or the
current index at the last index `bound - 1`. -/
def claimedAfter (bound x : Int) : Int := if x = bound - 1 then x else x + 1

/-- The "before" index in the words of the specification: the fixed index 0 at
the right edge `bound - 1`, the fixed index 1 otherwise. -/
def claimedBefore (bound x : Int) : Int := if x = bound - 1 then 0 else 1

/-! ## Views on `Neighbourhood` -/

/-- The local variable `kernel_size` of the constructor of `Neighbourhood`
(lines 56-59): `max(3 * scale, min)` converted to `int`, plus 1 when even. -/
def oddKernelSize (scale min : ℚ) : Int :=
  let kernel_size0 : Int := toInt32 (max (3 * scale) min)
  if kernel_size0.tmod 2 = 0 then kernel_size0 + 1 else kernel_size0

/-! ## In-bounds reads of the finite differences -/

/-- Both finite differences read only samples inside the image, at every pixel
of the image: `delta` has a value exactly when its two reads have one. -/
def readsInBounds (image : Mat) : Prop :=
  ∀ x y : Int, 0 ≤ x → x < image.rows → 0 ≤ y → y < image.cols →
    (delta_x image x y).isSome = true ∧ (delta_y image x y).isSome = true

/-! ## Concrete inputs used to exercise the definitions -/

/-- A 3 x 3 image whose sample at `(r, c)` is `k * (r + c)`. -/
def rampMat (k : ℚ) : Mat := ⟨3, 3, fun r c => k * (r + c)⟩

/-- One octave of three 3 x 3 levels. -/
def sampleDog : List (List Mat) := [[rampMat 1, rampMat 2, rampMat 3]]

/-- The keypoint `getScaleSpaceExtrema` reports on `sampleDog`: centre pixel of level 1. -/
def sampleKeyPoint : KeyPoint :=
  { x := 1, y := 1, size := 1, angle := 1, response := 4, octave := 0 }

/-- Externals with non-negative magnitudes and weights: `|dx| + |dy|` for the
magnitude, constant weights, a constant for `atan`. -/
def sampleEnv : Env :=
  { atan := fun _ => 45, hypot := fun a b => |a| + |b|,
    getGaussianKernel := fun n _ => ⟨n.toNat, 1, fun _ _ => 1⟩, indet := 5 }

/-- Two octaves: three 3 x 3 levels, then three more. -/
def sampleDog2 : List (List Mat) :=
  [[rampMat 1, rampMat 2, rampMat 3], [rampMat 2, rampMat 4, rampMat 8]]

/-- A keypoint of `sampleDog2`: centre pixel of level 1 of octave 1. -/
def sampleKeyPoint2 : KeyPoint :=
  { x := 1, y := 1, size := 2, angle := 1, response := 8, octave := 1 }

/-- A stand-in for `find_local_extremas` that reports the centre pixel `(1, 1)`
of every level that has one. -/
def centrePixel (_below centre _above : Mat) : List (Int × Int) :=
  if 1 < centre.rows ∧ 1 < centre.cols then [(1, 1)] else []

/-- Rounding to the nearest integer, ties to the even one. -/
def roundHalfEven (q : ℚ) : Int :=
  if q - ⌊q⌋ < 1 / 2 then ⌊q⌋
  else if 1 / 2 < q - ⌊q⌋ then ⌊q⌋ + 1
  else if ⌊q⌋ % 2 = 0 then ⌊q⌋ else ⌊q⌋ + 1

/-- The conversion to `float` of IEEE binary32 in the normal range: the nearest
value with 24 significant bits under the leading power of two
`2 ^ Int.log 2 |q|`, ties to even. Subnormal values and the overflow to infinity
are not represented. -/
def float32 (q : ℚ) : ℚ :=
  if q = 0 then 0
  else roundHalfEven (q / 2 ^ (Int.log 2 |q| - 23)) * 2 ^ (Int.log 2 |q| - 23)

/-- A level of 16777219 x 3 samples, all 0. -/
def tallMat : Mat := ⟨16777219, 3, fun _ _ => 0⟩

/-- A stand-in for `find_local_extremas` that reports the pixel `(16777217, 1)` of
every level that has it as an interior pixel. -/
def deepPixel (_below centre _above : Mat) : List (Int × Int) :=
  if 16777218 < centre.rows ∧ 2 < centre.cols then [(16777217, 1)] else []

/-! ## Invariants used in the proofs -/

/-- Shape invariant of the octave loop: octaves below `o` are finished (`S`
levels), octaves from `o` on are still empty. -/
def GaussShape (S : Nat) (o : Nat) (pyr : List (List Mat)) : Prop :=
  ∀ (k : Nat) (oct : List Mat), pyr[k]? = some oct →
    (k < o → oct.length = S) ∧ (o ≤ k → oct.length = 0)

/-! ## Lemmas on `buildGaussianPyramid` -/

theorem blurLevels_length (GaussianBlur : Mat → ℚ → Mat) (K : ℚ) (image_ds : Mat) :
    ∀ (n : Nat) (sigma : ℚ) (octave : List Mat),
      (blurLevels GaussianBlur K image_ds n sigma octave).length = octave.length + n := by
  intro n
  induction n with
  | zero => intro sigma octave; simp [blurLevels]
  | succ n ih =>
      intro sigma octave
      simp [blurLevels, ih]
      omega

theorem vecAt_isSome {α : Type} (v : List α) (i : Int) (h0 : 0 ≤ i) (h1 : i < v.length) :
    ∃ a, vecAt v i = some a := by
  have h2 : i.toNat < v.length := by omega
  refine ⟨v[i.toNat], ?_⟩
  simp [vecAt, h2]
  omega

theorem octaveLoop_shape (GaussianBlur : Mat → ℚ → Mat) (downSample : Mat → Mat)
    (S : Nat) (sigma0 K : ℚ) (hS : 3 ≤ S) :
    ∀ (n o : Nat) (image_ds : Mat) (pyr : List (List Mat)),
      pyr.length = o + n → GaussShape S o pyr →
      ∃ out, octaveLoop GaussianBlur downSample S sigma0 K n o image_ds pyr = some out ∧
        out.length = o + n ∧ GaussShape S (o + n) out := by
  intro n
  induction n with
  | zero =>
      intro o image_ds pyr hlen hshape
      exact ⟨pyr, by simp [octaveLoop], by simpa using hlen, by simpa using hshape⟩
  | succ n ih =>
      intro o image_ds pyr hlen hshape
      have ho : o < pyr.length := by omega
      have hget : pyr[o]? = some pyr[o] := List.getElem?_eq_getElem ho
      have hempty : (pyr[o]).length = 0 := (hshape o pyr[o] hget).2 (le_refl o)
      have hlen' : (blurLevels GaussianBlur K image_ds S sigma0 pyr[o]).length = S := by
        rw [blurLevels_length, hempty]; omega
      obtain ⟨src, hsrc⟩ := vecAt_isSome (blurLevels GaussianBlur K image_ds S sigma0 pyr[o])
        ((S : Int) - 3) (by omega) (by omega)
      have hshape' : GaussShape S (o + 1)
          (pyr.set o (blurLevels GaussianBlur K image_ds S sigma0 pyr[o])) := by
        intro k oct hk
        by_cases hko : k = o
        · subst hko
          rw [List.getElem?_set_self ho] at hk
          cases hk
          exact ⟨fun _ => hlen', fun h => by omega⟩
        · rw [List.getElem?_set_ne (Ne.symm hko)] at hk
          have := hshape k oct hk
          exact ⟨fun h => this.1 (by omega), fun h => this.2 (by omega)⟩
      obtain ⟨out, hout, hol, hos⟩ := ih (o + 1) (downSample src)
        (pyr.set o (blurLevels GaussianBlur K image_ds S sigma0 pyr[o]))
        (by simp; omega) hshape'
      refine ⟨out, ?_, by omega, ?_⟩
      · simp only [octaveLoop, hget, hsrc]
        exact hout
      · have : o + 1 + n = o + (n + 1) := by omega
        rw [this] at hos
        exact hos

/-! ## Lemmas on `buildDogPyr` -/

theorem dogOctave_spec (matSub : Mat → Mat → Mat) (octave : List Mat)
    (hne : octave.length ≠ 0) :
    ∃ dog, dogOctave matSub octave = some dog ∧ dog.length = octave.length - 1 ∧
      ∀ (i : Nat) (lower upper : Mat), octave[i]? = some lower → octave[i + 1]? = some upper →
        dog[i]? = some (matSub upper lower) := by
  refine ⟨List.zipWith (fun lower upper => matSub upper lower)
    (octave.take (octave.length - 1)) (octave.drop 1), by simp [dogOctave, hne], ?_, ?_⟩
  · simp [List.length_zipWith, List.length_take, List.length_drop]
  · intro i lower upper hl hu
    have hi : i + 1 < octave.length := by
      by_contra h
      rw [List.getElem?_eq_none (by omega)] at hu
      cases hu
    have h1 : (octave.take (octave.length - 1))[i]? = some lower := by
      rw [List.getElem?_take_of_lt (by omega)]; exact hl
    have h2 : (octave.drop 1)[i]? = some upper := by
      rw [List.getElem?_drop, Nat.add_comm]; exact hu
    rw [List.getElem?_zipWith, h1, h2]

/-! ## Lemmas on `remove_if` and `cleanPoints` -/

theorem take_set_same {α : Type} (a : List α) (w : Nat) (v : α) :
    (a.set w v).take w = a.take w := by
  apply List.ext_getElem?
  intro i
  rw [List.getElem?_take, List.getElem?_take]
  split
  · rw [List.getElem?_set_ne (by omega)]
  · rfl

theorem take_succ_set {α : Type} (a : List α) (w : Nat) (v : α) (h : w < a.length) :
    (a.set w v).take (w + 1) = a.take w ++ [v] := by
  rw [List.take_succ, List.getElem?_set_self h, take_set_same]
  rfl

/-- Loop invariant of `remove_if`: the kept prefix followed by the kept part of
the unread suffix never changes. -/
theorem removeIfLoop_take {α : Type} (pred : α → Bool) :
    ∀ (fuel : Nat) (a : List α) (w r : Nat), w ≤ r → a.length - r ≤ fuel →
      (removeIfLoop pred fuel a w r).1.take (removeIfLoop pred fuel a w r).2 =
        a.take w ++ (a.drop r).filter (fun x => !pred x) := by
  intro fuel
  induction fuel with
  | zero =>
      intro a w r _ hfuel
      have : a.drop r = [] := List.drop_eq_nil_of_le (by omega)
      simp [removeIfLoop, this]
  | succ fuel ih =>
      intro a w r hwr hfuel
      by_cases hr : r < a.length
      · have hget : a[r]? = some a[r] := List.getElem?_eq_getElem hr
        have hdrop : a.drop r = a[r] :: a.drop (r + 1) := List.drop_eq_getElem_cons hr
        by_cases hp : pred a[r] = true
        · have hfil : (a.drop r).filter (fun x => !pred x) =
              (a.drop (r + 1)).filter (fun x => !pred x) := by
            rw [hdrop, List.filter_cons_of_neg (by simp [hp])]
          simp only [removeIfLoop, hget, hp, if_true]
          rw [ih a w (r + 1) (by omega) (by omega), hfil]
        · have hfil : (a.drop r).filter (fun x => !pred x) =
              a[r] :: (a.drop (r + 1)).filter (fun x => !pred x) := by
            rw [hdrop, List.filter_cons_of_pos (by simp [hp])]
          simp only [removeIfLoop, hget, hp]
          rw [if_neg (by simp), ih (a.set w a[r]) (w + 1) (r + 1) (by omega) (by simp; omega),
            take_succ_set a w a[r] (by omega), List.drop_set_of_lt a[r] a (by omega), hfil]
          simp
      · have hget : a[r]? = none := List.getElem?_eq_none (by omega)
        have : a.drop r = [] := List.drop_eq_nil_of_le (by omega)
        simp [removeIfLoop, hget, this]

theorem remove_if_take {α : Type} (pred : α → Bool) (a : List α) :
    (remove_if pred a).1.take (remove_if pred a).2 = a.filter (fun x => !pred x) := by
  simpa [remove_if] using removeIfLoop_take pred a.length a 0 0 (le_refl 0) (by omega)

/-- The list left by `cleanPoints` is the input filtered by "not `curv > threshold`". -/
theorem cleanPoints_eq_filter (compute_keypoint_curvature : List (List Mat) → KeyPoint → ℚ)
    (KP_CURVATURE_THRESHOLD : ℚ) (image : Mat) (dog_pyr : List (List Mat))
    (keypoints : List KeyPoint) :
    cleanPoints compute_keypoint_curvature KP_CURVATURE_THRESHOLD image dog_pyr keypoints =
      keypoints.filter (fun kp =>
        !decide (compute_keypoint_curvature dog_pyr kp > KP_CURVATURE_THRESHOLD)) := by
  simp only [cleanPoints]
  exact remove_if_take _ keypoints

/-! ## Lemmas on `getScaleSpaceExtrema` -/

theorem getElem?_of_lt {α : Type} (l : List α) (i : Nat) (h : i < l.length) :
    ∃ x, l[i]? = some x :=
  ⟨l[i], List.getElem?_eq_getElem h⟩

theorem levelBound_zero : levelBound 0 = 2 ^ 64 - 1 := by
  simp [levelBound]

theorem levelBound_le (size : Nat) (h : size ≠ 0) : levelBound size ≤ size - 1 := by
  simp [levelBound, h]

/-- The bound is the 64-bit modular value of `size - 1` for every size a
`std::size_t` can hold. -/
theorem levelBound_eq_mod (size : Nat) (h : size < 2 ^ 64) :
    levelBound size = (size + 2 ^ 64 - 1) % 2 ^ 64 := by
  unfold levelBound
  split
  · next h0 => subst h0; norm_num
  · next h0 =>
      have h1 : size + 2 ^ 64 - 1 = (size - 1) + 2 ^ 64 := by omega
      rw [h1, Nat.add_mod_right, Nat.mod_eq_of_lt (by omega)]

theorem pointLoop_spec (toFloat : ℚ → ℚ) (centre : Mat) (octave_sigma : ℚ)
    (image octave : Nat) :
    ∀ (points : List (Int × Int)) (keypoints : List KeyPoint),
      (∀ p ∈ points, ∃ v, centre.at p.1 p.2 = some v) →
      ∃ added, pointLoop toFloat centre octave_sigma image octave points keypoints =
          some (keypoints ++ added) ∧
        ∀ p ∈ points, ∃ v, centre.at p.1 p.2 = some v ∧
          mkKeyPoint toFloat p octave_sigma image v octave ∈ added := by
  intro points
  induction points with
  | nil => intro keypoints _; exact ⟨[], by simp [pointLoop], by simp⟩
  | cons p points ih =>
      intro keypoints hin
      obtain ⟨v, hv⟩ := hin p (List.mem_cons_self _ _)
      obtain ⟨added, hrun, hmem⟩ :=
        ih (keypoints ++ [mkKeyPoint toFloat p octave_sigma image v octave])
          (fun q hq => hin q (List.mem_cons_of_mem _ hq))
      refine ⟨mkKeyPoint toFloat p octave_sigma image v octave :: added, ?_, ?_⟩
      · simp only [pointLoop, hv]
        rw [hrun]
        simp
      · intro q hq
        rcases List.mem_cons.mp hq with rfl | hq'
        · exact ⟨v, hv, List.mem_cons_self _ _⟩
        · obtain ⟨w, hw, hwm⟩ := hmem q hq'
          exact ⟨w, hw, List.mem_cons_of_mem _ hwm⟩

theorem levelLoop_spec (toFloat : ℚ → ℚ)
    (find_local_extremas : Mat → Mat → Mat → List (Int × Int))
    (octave_dog : List Mat) (octave_sigma : ℚ) (octave : Nat)
    (hfle : ∀ (a b c : Mat), ∀ p ∈ find_local_extremas a b c, ∃ v, b.at p.1 p.2 = some v) :
    ∀ (remaining image : Nat) (keypoints : List KeyPoint),
      1 ≤ image → (remaining = 0 ∨ image + remaining < octave_dog.length) →
      ∃ added, levelLoop toFloat find_local_extremas octave_dog octave_sigma octave remaining
          image keypoints = some (keypoints ++ added) ∧
        ∀ (i : Nat) (below centre above : Mat), image ≤ i → i < image + remaining →
          octave_dog[i - 1]? = some below → octave_dog[i]? = some centre →
          octave_dog[i + 1]? = some above →
          ∀ p ∈ find_local_extremas below centre above, ∃ v, centre.at p.1 p.2 = some v ∧
            mkKeyPoint toFloat p octave_sigma i v octave ∈ added := by
  intro remaining
  induction remaining with
  | zero =>
      intro image keypoints _ _
      refine ⟨[], by simp [levelLoop], ?_⟩
      intro i _ _ _ h1 h2
      omega
  | succ n ih =>
      intro image keypoints h1 hlen
      obtain ⟨lo, g0⟩ := getElem?_of_lt octave_dog (image - 1) (by omega)
      obtain ⟨mid, g1⟩ := getElem?_of_lt octave_dog image (by omega)
      obtain ⟨hi, g2⟩ := getElem?_of_lt octave_dog (image + 1) (by omega)
      obtain ⟨added1, hrun1, hmem1⟩ := pointLoop_spec toFloat mid octave_sigma image octave
        (find_local_extremas lo mid hi) keypoints (hfle _ _ _)
      obtain ⟨added2, hrun2, hmem2⟩ := ih (image + 1) (keypoints ++ added1) (by omega) (by omega)
      refine ⟨added1 ++ added2, ?_, ?_⟩
      · simp only [levelLoop, g0, g1, g2, hrun1, hrun2, List.append_assoc]
      · intro i below centre above hi hib hbelow hcentre habove p hp
        by_cases hieq : i = image
        · subst hieq
          rw [g0] at hbelow
          rw [g1] at hcentre
          rw [g2] at habove
          cases hbelow
          cases hcentre
          cases habove
          obtain ⟨v, hv, hvm⟩ := hmem1 p hp
          exact ⟨v, hv, List.mem_append_left _ hvm⟩
        · obtain ⟨v, hv, hvm⟩ := hmem2 i below centre above (by omega) (by omega) hbelow hcentre
            habove p hp
          exact ⟨v, hv, List.mem_append_right _ hvm⟩

theorem octaveScan_spec (toFloat : ℚ → ℚ) (compute_octave_sigma : Nat → ℚ)
    (find_local_extremas : Mat → Mat → Mat → List (Int × Int))
    (hfle : ∀ (a b c : Mat), ∀ p ∈ find_local_extremas a b c, ∃ v, b.at p.1 p.2 = some v) :
    ∀ (rest : List (List Mat)) (octave : Nat) (keypoints : List KeyPoint),
      (∀ oct ∈ rest, oct.length ≠ 0) →
      ∃ added, octaveScan toFloat compute_octave_sigma find_local_extremas octave rest
          keypoints = some (keypoints ++ added) ∧
        ∀ (k : Nat) (oct : List Mat) (i : Nat) (below centre above : Mat),
          rest[k]? = some oct → 1 ≤ i → i < levelBound oct.length →
          oct[i - 1]? = some below → oct[i]? = some centre → oct[i + 1]? = some above →
          ∀ p ∈ find_local_extremas below centre above, ∃ v, centre.at p.1 p.2 = some v ∧
            mkKeyPoint toFloat p (compute_octave_sigma (octave + k)) i v (octave + k) ∈
              added := by
  intro rest
  induction rest with
  | nil =>
      intro octave keypoints _
      exact ⟨[], by simp [octaveScan], by simp⟩
  | cons octave_dog rest ih =>
      intro octave keypoints hne
      have hb := levelBound_le octave_dog.length (hne _ (List.mem_cons_self _ _))
      have hpos : octave_dog.length ≠ 0 := hne _ (List.mem_cons_self _ _)
      obtain ⟨added1, hrun1, hmem1⟩ := levelLoop_spec toFloat find_local_extremas octave_dog
        (compute_octave_sigma octave) octave hfle
        (levelBound octave_dog.length - 1) 1 keypoints (le_refl 1) (by omega)
      obtain ⟨added2, hrun2, hmem2⟩ := ih (octave + 1) (keypoints ++ added1)
        (fun oct h => hne oct (List.mem_cons_of_mem _ h))
      refine ⟨added1 ++ added2, ?_, ?_⟩
      · simp only [octaveScan, hrun1, hrun2, List.append_assoc]
      · intro k oct i below centre above hk hi hib hbelow hcentre habove p hp
        cases k with
        | zero =>
            simp only [List.getElem?_cons_zero, Option.some.injEq] at hk
            subst hk
            obtain ⟨v, hv, hvm⟩ := hmem1 i below centre above hi (by omega) hbelow hcentre
              habove p hp
            exact ⟨v, hv, List.mem_append_left _ (by simpa using hvm)⟩
        | succ k =>
            simp only [List.getElem?_cons_succ] at hk
            obtain ⟨v, hv, hvm⟩ := hmem2 k oct i below centre above hk hi hib hbelow hcentre
              habove p hp
            have hidx : octave + 1 + k = octave + (k + 1) := by omega
            rw [hidx] at hvm
            exact ⟨v, hv, List.mem_append_right _ hvm⟩

/-- An octave of one or two levels has no interior level: the level loop does
not run and leaves the keypoints as they are. -/
theorem levelLoop_short_octave (toFloat : ℚ → ℚ)
    (find_local_extremas : Mat → Mat → Mat → List (Int × Int))
    (octave_dog : List Mat) (octave_sigma : ℚ) (octave : Nat) (keypoints : List KeyPoint)
    (h : octave_dog.length = 1 ∨ octave_dog.length = 2) :
    levelLoop toFloat find_local_extremas octave_dog octave_sigma octave
      (levelBound octave_dog.length - 1) 1 keypoints = some keypoints := by
  rcases h with h | h <;> simp [h, levelBound, levelLoop]

/-- For a non-empty octave the centre index of every iteration has a level on
both sides: index `i` is visited only if `1 ≤ i` and `i + 1 < size`. -/
theorem levelBound_interior (size i : Nat) (h : size ≠ 0) (hi : i < levelBound size) :
    i + 1 < size := by
  have := levelBound_le size h
  omega

/-- Every index with a level above it is below the loop bound: the loop visits
all interior levels. -/
theorem levelBound_covers (size i : Nat) (hi : i + 1 < size) : i < levelBound size := by
  unfold levelBound
  rw [if_neg (by omega)]
  omega

/-- An octave with zero levels stops the scan: the level loop is entered with the
wrapped bound and reads an empty vector. -/
theorem octaveScan_empty_octave (toFloat : ℚ → ℚ) (compute_octave_sigma : Nat → ℚ)
    (find_local_extremas : Mat → Mat → Mat → List (Int × Int)) (octave : Nat)
    (rest : List (List Mat)) (keypoints : List KeyPoint) :
    octaveScan toFloat compute_octave_sigma find_local_extremas octave ([] :: rest)
      keypoints = none := by
  have hb : levelBound 0 - 1 = (2 ^ 64 - 3) + 1 := by rw [levelBound_zero]; norm_num
  simp only [octaveScan, List.length_nil]
  rw [hb]
  simp [levelLoop]

theorem wrap32_zero : wrap32 0 = 0 := by
  decide

/-- The sample pyramid yields the sample keypoint when the conversion to `float`
is exact. -/
theorem getScaleSpaceExtrema_sample :
    getScaleSpaceExtrema (fun q => q) (fun o => 2 ^ o) centrePixel sampleDog [] =
      some [sampleKeyPoint] := by
  simp [getScaleSpaceExtrema, octaveScan, sampleDog, levelBound, levelLoop, centrePixel,
    rampMat, pointLoop, Mat.at, mkKeyPoint, sampleKeyPoint, wrap32_zero]
  norm_num

/-- The binary32 value nearest to the integer `2^24 + 1` is `2^24`. -/
theorem float32_16777217 : float32 16777217 = 16777216 := by
  have hlog : Int.log 2 |(16777217 : ℚ)| = 24 := by
    rw [abs_of_pos (by norm_num)]
    have h : ((16777217 : ℕ) : ℚ) = 16777217 := by norm_num
    rw [← h, Int.log_natCast]
    have hn : Nat.log 2 16777217 = 24 :=
      Nat.log_eq_of_pow_le_of_lt_pow (by norm_num) (by norm_num)
    rw [hn]
    rfl
  have hfloor : ⌊(16777217 : ℚ) / 2⌋ = 8388608 := by
    rw [Int.floor_eq_iff]
    constructor <;> norm_num
  unfold float32
  rw [if_neg (by norm_num), hlog]
  have hp : (2 : ℚ) ^ ((24 : Int) - 23) = 2 := by norm_num
  rw [hp]
  unfold roundHalfEven
  rw [hfloor]
  norm_num

/-- Pruning at threshold 10 with the response standing in for the curvature
ratio: the keypoint with ratio 11 is dropped, the others stay in order. -/
theorem cleanPoints_sample :
    cleanPoints (fun _ kp => kp.response) 10 (rampMat 1) []
        [sampleKeyPoint, { sampleKeyPoint with response := 11 }, sampleKeyPoint2] =
      [sampleKeyPoint, sampleKeyPoint2] := by
  decide

/-! ## Lemmas on `computeOrientationHist` -/

theorem vecAt_nil {α : Type} (i : Int) : vecAt ([] : List α) i = none := by
  unfold vecAt
  split <;> simp

theorem vecAt_replicate_append {α : Type} (n : Nat) (a : α) (tail : List α) (i : Int)
    (h0 : 0 ≤ i) (h1 : i < n) : vecAt (List.replicate n a ++ tail) i = some a := by
  have h2 : i.toNat < (List.replicate n a).length := by simp; omega
  have h3 : i.toNat < n := by omega
  unfold vecAt
  rw [if_neg (by omega), List.getElem?_append_left h2, List.getElem?_replicate, if_pos h3]

/-- The set-up loop appends: the octaves a pyramid holds before the loop stay in
front, and one octave per DoG octave is added behind them. -/
theorem fieldOctaves_append (env : Env) :
    ∀ (dogs_pyr : List (List Mat)) (pyr : FieldPyramids),
      (fieldOctaves env dogs_pyr pyr).mags_pyr = pyr.mags_pyr ++ dogs_pyr.map
          (fun dogs => (fieldLevels env dogs ⟨[], [], [], []⟩).mags) ∧
      (fieldOctaves env dogs_pyr pyr).angles_pyr = pyr.angles_pyr ++ dogs_pyr.map
          (fun dogs => (fieldLevels env dogs ⟨[], [], [], []⟩).angles) ∧
      (fieldOctaves env dogs_pyr pyr).dx_pyr = pyr.dx_pyr ++ dogs_pyr.map
          (fun dogs => (fieldLevels env dogs ⟨[], [], [], []⟩).dx) ∧
      (fieldOctaves env dogs_pyr pyr).dy_pyr = pyr.dy_pyr ++ dogs_pyr.map
          (fun dogs => (fieldLevels env dogs ⟨[], [], [], []⟩).dy) := by
  intro dogs_pyr
  induction dogs_pyr with
  | nil => intro pyr; simp [fieldOctaves]
  | cons dogs rest ih =>
      intro pyr
      obtain ⟨h1, h2, h3, h4⟩ := ih
        { dx_pyr := pyr.dx_pyr ++ [(fieldLevels env dogs ⟨[], [], [], []⟩).dx],
          dy_pyr := pyr.dy_pyr ++ [(fieldLevels env dogs ⟨[], [], [], []⟩).dy],
          mags_pyr := pyr.mags_pyr ++ [(fieldLevels env dogs ⟨[], [], [], []⟩).mags],
          angles_pyr := pyr.angles_pyr ++ [(fieldLevels env dogs ⟨[], [], [], []⟩).angles] }
      simp only [fieldOctaves, List.map_cons]
      rw [h1, h2, h3, h4]
      simp

/-- After the set-up loop the pyramids hold `2 * n` octaves for a DoG pyramid of
`n` octaves. -/
theorem fieldOctaves_length (env : Env) (dogs_pyr : List (List Mat)) :
    (fieldOctaves env dogs_pyr (FieldPyramids.init dogs_pyr.length)).mags_pyr.length =
      2 * dogs_pyr.length := by
  rw [(fieldOctaves_append env dogs_pyr _).1]
  simp [FieldPyramids.init]
  omega

/-- A keypoint whose octave index is an octave of the DoG pyramid makes the
lookup `mags_pyr[kp.octave][kp.angle]` read an empty octave. -/
theorem kpLoop_octave_in_range (env : Env) (dogs_pyr : List (List Mat)) (kp : KeyPoint)
    (rest : List KeyPoint) (histograms : List (List ℚ))
    (h0 : 0 ≤ kp.octave) (h1 : kp.octave < dogs_pyr.length) :
    kpLoop env (kp :: rest) (fieldOctaves env dogs_pyr (FieldPyramids.init dogs_pyr.length))
      histograms = none := by
  obtain ⟨hm, ha, _, _⟩ := fieldOctaves_append env dogs_pyr (FieldPyramids.init dogs_pyr.length)
  have hmags : vecAt (fieldOctaves env dogs_pyr (FieldPyramids.init dogs_pyr.length)).mags_pyr
      kp.octave = some [] := by
    rw [hm]
    exact vecAt_replicate_append _ _ _ _ h0 h1
  have hangles : vecAt (fieldOctaves env dogs_pyr
      (FieldPyramids.init dogs_pyr.length)).angles_pyr kp.octave = some [] := by
    rw [ha]
    exact vecAt_replicate_append _ _ _ _ h0 h1
  simp only [kpLoop, hmags, hangles, vecAt_nil]

theorem validKeyPoint_octave (dogs_pyr : List (List Mat)) (kp : KeyPoint)
    (hv : validKeyPoint dogs_pyr kp) : 0 ≤ kp.octave ∧ kp.octave < dogs_pyr.length := by
  obtain ⟨oct, dog, hoct, _⟩ := hv
  unfold vecAt at hoct
  split at hoct
  · cases hoct
  · next h =>
      have hlt : kp.octave.toNat < dogs_pyr.length := by
        by_contra hge
        rw [List.getElem?_eq_none (by omega)] at hoct
        cases hoct
      omega

/-! ## Lemmas on the angle function -/

theorem M_PI_ne_zero : M_PI ≠ 0 := by
  norm_num [M_PI]

theorem angleOf_zero_neg (atan : ℚ → ℚ) (dy : ℚ) (h : dy < 0) : angleOf atan 0 dy = 90 := by
  have hpi := M_PI_ne_zero
  simp only [angleOf, if_true, h]
  field_simp
  ring

theorem angleOf_zero_nonneg (atan : ℚ → ℚ) (dy : ℚ) (h : 0 ≤ dy) :
    angleOf atan 0 dy = 180 := by
  have hpi := M_PI_ne_zero
  simp only [angleOf, if_true, not_lt.mpr h, if_false]
  have h32 : (((3 : Int) / 2 : Int) : ℚ) = 1 := by norm_num
  rw [h32]
  field_simp

theorem angleOf_range (atan : ℚ → ℚ) (dx dy : ℚ) :
    0 ≤ angleOf atan dx dy ∧ angleOf atan dx dy ≤ 359 := by
  by_cases hdx : dx = 0
  · subst hdx
    by_cases hdy : dy < 0
    · rw [angleOf_zero_neg atan dy hdy]; norm_num
    · rw [angleOf_zero_nonneg atan dy (not_lt.mp hdy)]; norm_num
  · simp only [angleOf, hdx, if_false]
    exact ⟨le_max_left _ _, max_le (by norm_num) (min_le_right _ _)⟩

/-! ## Lemmas for the reference pyramid -/

theorem blurLevels_eq_map (GaussianBlur : Mat → ℚ → Mat) (K : ℚ) (image_ds : Mat) :
    ∀ (n : Nat) (sigma : ℚ) (octave : List Mat),
      blurLevels GaussianBlur K image_ds n sigma octave =
        octave ++ (List.range n).map (fun i => GaussianBlur image_ds (sigma * K ^ i)) := by
  intro n
  induction n with
  | zero => intro sigma octave; simp [blurLevels]
  | succ n ih =>
      intro sigma octave
      have hpow : ∀ i : Nat, sigma * K * K ^ i = sigma * K ^ (i + 1) := by
        intro i
        rw [pow_succ]
        ring
      rw [blurLevels, ih, List.range_succ_eq_map, List.map_cons, List.map_map,
        List.append_assoc]
      simp [Function.comp, hpow]

theorem vecAt_map_range {α : Type} (g : Nat → α) (n : Nat) (i : Int) (h0 : 0 ≤ i)
    (h1 : i < n) : vecAt ((List.range n).map g) i = some (g i.toNat) := by
  have h2 : i.toNat < n := by omega
  unfold vecAt
  rw [if_neg (by omega), List.getElem?_map, List.getElem?_range h2]
  rfl

theorem set_append_replicate {α : Type} (pre : List (List α)) (row : List α) (n : Nat) :
    (pre ++ List.replicate (n + 1) []).set pre.length row =
      (pre ++ [row]) ++ List.replicate n [] := by
  rw [List.set_append_right _ _ (le_refl _)]
  simp [List.replicate_succ]

/-- Invariant of the octave loop against the reference: with the finished
octaves `pre` in front, `n` empty octaves behind and the reference base of
octave `o` as current image, the loop completes the reference pyramid. -/
theorem octaveLoop_eq_ref (GaussianBlur : Mat → ℚ → Mat) (downSample : Mat → Mat)
    (S : Nat) (sigma0 K : ℚ) (image : Mat) (hS : 3 ≤ S) :
    ∀ (n o : Nat) (pre : List (List Mat)), pre.length = o →
      octaveLoop GaussianBlur downSample S sigma0 K n o
          (refBase GaussianBlur downSample S sigma0 K image o) (pre ++ List.replicate n []) =
        some (pre ++ (List.range' o n).map
          (refOctave GaussianBlur downSample S sigma0 K image)) := by
  intro n
  induction n with
  | zero => intro o pre _; simp [octaveLoop]
  | succ n ih =>
      intro o pre hpre
      have hget : (pre ++ List.replicate (n + 1) ([] : List Mat))[o]? = some [] := by
        rw [List.getElem?_append_right (by omega), hpre]
        simp
      have hrow : blurLevels GaussianBlur K
          (refBase GaussianBlur downSample S sigma0 K image o) S sigma0 [] =
          refOctave GaussianBlur downSample S sigma0 K image o := by
        rw [blurLevels_eq_map]
        simp [refOctave]
      have hsrc : vecAt (refOctave GaussianBlur downSample S sigma0 K image o) ((S : Int) - 3) =
          some (GaussianBlur (refBase GaussianBlur downSample S sigma0 K image o)
            (sigma0 * K ^ (S - 3))) := by
        unfold refOctave
        rw [vecAt_map_range _ _ _ (by omega) (by omega)]
        have : ((S : Int) - 3).toNat = S - 3 := by omega
        rw [this]
      have hset := set_append_replicate pre
        (refOctave GaussianBlur downSample S sigma0 K image o) n
      rw [hpre] at hset
      have hnext := ih (o + 1) (pre ++ [refOctave GaussianBlur downSample S sigma0 K image o])
        (by simp [hpre])
      simp only [octaveLoop, hget, hrow, hsrc, hset]
      rw [show downSample (GaussianBlur (refBase GaussianBlur downSample S sigma0 K image o)
          (sigma0 * K ^ (S - 3))) = refBase GaussianBlur downSample S sigma0 K image (o + 1)
          from rfl, hnext]
      simp [List.range'_succ]

/-! ## Lemmas on the initial content of `pyr` -/

/-- When the octaves that `resize` keeps are all empty, `resize` yields `n` empty
octaves, as it does on an empty vector. -/
theorem resize_of_empty_prefix {α : Type} (pyr : List (List α)) (n : Nat)
    (h : ∀ oct ∈ pyr.take n, oct = []) : resize pyr n = List.replicate n [] := by
  have htake : pyr.take n = List.replicate (pyr.take n).length [] :=
    List.eq_replicate_of_mem h
  unfold resize
  rw [htake, ← List.replicate_add]
  congr 1
  rw [List.length_take]
  omega

/-! ## Lemmas on the finite differences -/

theorem delta_x_eq (image : Mat) (x y : Int) :
    delta_x image x y = delta image (afterIndex image.cols x) y (beforeIndex x) y := rfl

theorem delta_y_eq (image : Mat) (x y : Int) :
    delta_y image x y = delta image x (afterIndex image.rows y) x (beforeIndex y) := rfl

/-- Inside the bound the "after" index of the code is the one of the specification. -/
theorem afterIndex_eq_claimed (bound x : Int) (h : x < bound) :
    afterIndex bound x = claimedAfter bound x := by
  unfold afterIndex claimedAfter
  split <;> split <;> omega

/-- The value of `delta`: the sample at `(x2, y2)` minus the sample at `(x1, y1)`. -/
theorem delta_eq_some (image : Mat) (x1 y1 x2 y2 : Int) (a b : ℚ)
    (h2 : image.at x2 y2 = some a) (h1 : image.at x1 y1 = some b) :
    delta image x1 y1 x2 y2 = some (a - b) := by
  simp [delta, h1, h2]

/-! ## Lemmas on `Neighbourhood` -/

theorem wrap32_of_range (z : Int) (h0 : -(2 ^ 31) ≤ z) (h1 : z < 2 ^ 31) : wrap32 z = z := by
  unfold wrap32
  rw [if_pos ⟨h0, h1⟩]

/-- The wrapped value is the 32-bit two's complement value of `z`, for every `z`. -/
theorem wrap32_eq_mod (z : Int) : wrap32 z = (z + 2 ^ 31) % 2 ^ 32 - 2 ^ 31 := by
  unfold wrap32
  split
  · omega
  · rfl

theorem Neighbourhood_new_eq (indet num_rows num_columns row col : Int) (scale min : ℚ) :
    Neighbourhood.new indet num_rows num_columns row col scale min =
      { kernel_size := indet
        row_start := if row > (oddKernelSize scale min).tdiv 2
          then wrap32 (row - (oddKernelSize scale min).tdiv 2) else 0
        row_end := if wrap32 (row + (oddKernelSize scale min).tdiv 2) < wrap32 (num_rows - 1)
          then wrap32 (row + (oddKernelSize scale min).tdiv 2) + 1 else num_rows
        col_start := if col > (oddKernelSize scale min).tdiv 2
          then wrap32 (col - (oddKernelSize scale min).tdiv 2) else 0
        col_end := if wrap32 (col + (oddKernelSize scale min).tdiv 2) < wrap32 (num_columns - 1)
          then wrap32 (col + (oddKernelSize scale min).tdiv 2) + 1 else num_columns } := rfl

/-- The histogram loop passes the member `kernel_size` of `area_info`, that is the
indeterminate value, as the kernel size of the smoothing function. -/
theorem kpHistogram_eq (env : Env) (grad_magnitudes angles_mat : LazyMat) (kp : KeyPoint) :
    kpHistogram env grad_magnitudes angles_mat kp =
      (match histRows
          (Neighbourhood.new env.indet grad_magnitudes.rows grad_magnitudes.cols
            (toInt32 kp.x) (toInt32 kp.y) kp.size)
          (intRange
            (Neighbourhood.new env.indet grad_magnitudes.rows grad_magnitudes.cols
              (toInt32 kp.x) (toInt32 kp.y) kp.size).row_start
            (Neighbourhood.new env.indet grad_magnitudes.rows grad_magnitudes.cols
              (toInt32 kp.x) (toInt32 kp.y) kp.size).row_end)
          angles_mat
          (LazyMat.new (create_smoothing_func env.getGaussianKernel env.indet grad_magnitudes
            kp env.indet) grad_magnitudes.rows grad_magnitudes.cols)
          (List.replicate 36 0) with
        | none => none
        | some (angles_mat', _, kp_histogram') => some (angles_mat', kp_histogram')) := rfl

/-- For `3 * scale` below `2^31` the conversion of `max(3 * scale, 5)` to `int` is
the truncation, a value of `[5, 2^31)`. -/
theorem toInt32_max_bounds (scale : ℚ) (h : 3 * scale < 2 ^ 31) :
    5 ≤ toInt32 (max (3 * scale) 5) ∧ toInt32 (max (3 * scale) 5) < 2 ^ 31 := by
  have h5 : (5 : ℚ) ≤ max (3 * scale) 5 := le_max_right _ _
  have h0 : (0 : ℚ) ≤ max (3 * scale) 5 := le_trans (by norm_num) h5
  have hlt : max (3 * scale) 5 < 2 ^ 31 := max_lt h (by norm_num)
  have hlo : -(2 ^ 31 : ℚ) - 1 < max (3 * scale) 5 := lt_of_lt_of_le (by norm_num) h0
  unfold toInt32 truncToInt
  rw [if_pos ⟨hlo, hlt⟩, if_pos h0]
  constructor
  · exact Int.le_floor.mpr (by exact_mod_cast h5)
  · exact Int.floor_lt.mpr (by exact_mod_cast hlt)

/-- For `3 * scale` below `2^31` the size computed by the constructor is odd, at
least 5 and below `2^31`, and twice its half plus one gives it back. -/
theorem oddKernelSize_odd (scale : ℚ) (h : 3 * scale < 2 ^ 31) :
    (5 ≤ oddKernelSize scale 5 ∧ oddKernelSize scale 5 < 2 ^ 31) ∧
      oddKernelSize scale 5 % 2 = 1 ∧
      oddKernelSize scale 5 = 2 * (oddKernelSize scale 5).tdiv 2 + 1 := by
  obtain ⟨h5, hlt⟩ := toInt32_max_bounds scale h
  have hmod : (toInt32 (max (3 * scale) 5)).tmod 2 = toInt32 (max (3 * scale) 5) % 2 :=
    Int.tmod_eq_emod (by omega) (by norm_num)
  have hk : (5 ≤ oddKernelSize scale 5 ∧ oddKernelSize scale 5 < 2 ^ 31) ∧
      oddKernelSize scale 5 % 2 = 1 := by
    unfold oddKernelSize
    simp only [hmod]
    split <;> omega
  have hdiv : (oddKernelSize scale 5).tdiv 2 = oddKernelSize scale 5 / 2 :=
    Int.tdiv_eq_ediv (by omega) (by norm_num)
  refine ⟨hk.1, hk.2, ?_⟩
  rw [hdiv]
  omega

/-- At scale `10^10` the value `3 * scale` is outside the range of `int`: the
local size is `INT_MIN + 1` and its half is negative. -/
theorem oddKernelSize_overflow : oddKernelSize 10000000000 5 = -2147483647 := by
  have h : toInt32 (max (3 * 10000000000) 5) = -2147483648 := by
    norm_num [toInt32]
  simp only [oddKernelSize, h]
  decide

theorem mem_intRange (a b i : Int) : i ∈ intRange a b ↔ a ≤ i ∧ i < b := by
  unfold intRange
  simp only [List.mem_map, List.mem_range, List.bind_eq_flatMap, List.pure_def,
    List.mem_flatMap, List.mem_singleton, Int.lt_toNat]
  constructor
  · rintro ⟨_, ⟨k, hk, rfl⟩, rfl⟩
    omega
  · intro h
    exact ⟨i - a, ⟨(i - a).toNat, by omega, by omega⟩, by omega⟩

/-! ## Lemmas on `LazyMat` and on the set-up loop -/

theorem vecAt_bounds {α : Type} (v : List α) (i : Int) (a : α) (h : vecAt v i = some a) :
    0 ≤ i ∧ i.toNat < v.length := by
  unfold vecAt at h
  split at h
  · cases h
  · next hi =>
      refine ⟨by omega, ?_⟩
      by_contra hge
      rw [List.getElem?_eq_none (by omega)] at h
      cases h

theorem vecAt_set_self {α : Type} (v : List α) (i : Int) (a b : α)
    (h : vecAt v i = some a) : vecAt (v.set i.toNat b) i = some b := by
  obtain ⟨h0, h1⟩ := vecAt_bounds v i a h
  unfold vecAt
  rw [if_neg (by omega), List.getElem?_set_self h1]

/-- The memoisation of `at` is sound on a matrix whose cache vectors hold the
index: the first call computes `f(x, y)` and marks the entry, a repeated call
returns the same value from the cache. -/
theorem LazyMat_at_sized (m : LazyMat) (x y : Int) (v old : ℚ)
    (hc : vecAt m.is_computed (x * m.cols + y) = some false)
    (hv : vecAt m.values (x * m.cols + y) = some old) (hf : m.f x y = some v) :
    ∃ m', m.at x y = some (v, m') ∧ m'.at x y = some (v, m') := by
  refine ⟨{ m with is_computed := m.is_computed.set (x * m.cols + y).toNat true,
                   values := m.values.set (x * m.cols + y).toNat v }, ?_, ?_⟩
  · simp only [LazyMat.at, hc, hf, hv]
  · simp only [LazyMat.at, vecAt_set_self _ _ _ _ hc, vecAt_set_self _ _ _ _ hv]

theorem fieldLevels_length (env : Env) :
    ∀ (dogs : List Mat) (oct : FieldOctave),
      (fieldLevels env dogs oct).dx.length = oct.dx.length + dogs.length ∧
      (fieldLevels env dogs oct).dy.length = oct.dy.length + dogs.length ∧
      (fieldLevels env dogs oct).mags.length = oct.mags.length + dogs.length ∧
      (fieldLevels env dogs oct).angles.length = oct.angles.length + dogs.length := by
  intro dogs
  induction dogs with
  | nil => intro oct; simp [fieldLevels]
  | cons dog dogs ih =>
      intro oct
      have h := ih
        { dx := oct.dx ++ [LazyMat.new (fun x y => delta_x dog x y) dog.rows dog.cols],
          dy := oct.dy ++ [LazyMat.new (fun x y => delta_y dog x y) dog.rows dog.cols],
          mags := oct.mags ++ [LazyMat.new (get_mag env.hypot
            (LazyMat.new (fun x y => delta_x dog x y) dog.rows dog.cols)
            (LazyMat.new (fun x y => delta_y dog x y) dog.rows dog.cols)) dog.rows dog.cols],
          angles := oct.angles ++ [LazyMat.new (get_angle env.atan
            (LazyMat.new (fun x y => delta_x dog x y) dog.rows dog.cols)
            (LazyMat.new (fun x y => delta_y dog x y) dog.rows dog.cols)) dog.rows dog.cols] }
      simp only [List.length_append, List.length_singleton] at h
      simp only [fieldLevels, List.length_cons]
      omega

/-! ## Lemmas on in-bounds reads -/

theorem Mat_at_isSome (m : Mat) (r c : Int) :
    (m.at r c).isSome = true ↔ 0 ≤ r ∧ r < m.rows ∧ 0 ≤ c ∧ c < m.cols := by
  unfold Mat.at
  split <;> simp_all

theorem delta_isSome (image : Mat) (x1 y1 x2 y2 : Int) :
    (delta image x1 y1 x2 y2).isSome = true ↔
      (0 ≤ x2 ∧ x2 < image.rows ∧ 0 ≤ y2 ∧ y2 < image.cols) ∧
      (0 ≤ x1 ∧ x1 < image.rows ∧ 0 ≤ y1 ∧ y1 < image.cols) := by
  rw [← Mat_at_isSome, ← Mat_at_isSome]
  unfold delta
  cases image.at x2 y2 <;> cases image.at x1 y1 <;> simp

/-! ## Lemmas on the range of the angle -/

theorem M_PI_pos : 0 < M_PI := by
  norm_num [M_PI]

/-- The sign bit of the quotient is set exactly when the quotient is negative or
is the zero of `dy = 0`, `dx < 0`. -/
theorem signbitDiv_iff (dy dx : ℚ) (hdx : dx ≠ 0) :
    signbitDiv dy dx = true ↔ (dy / dx < 0 ∨ (dy = 0 ∧ dx < 0)) := by
  unfold signbitDiv
  rcases lt_or_gt_of_ne hdx with hx | hx
  · rcases lt_trichotomy dy 0 with hy | hy | hy
    · have hq : 0 < dy / dx := div_pos_of_neg_of_neg hy hx
      simp [hx, hy, not_lt.mpr (le_of_lt hq), ne_of_lt hy]
    · subst hy
      simp [hx]
    · have hq : dy / dx < 0 := div_neg_of_pos_of_neg hy hx
      simp [hx, hq, not_lt.mpr (le_of_lt hy)]
  · rcases lt_or_ge dy 0 with hy | hy
    · have hq : dy / dx < 0 := div_neg_of_neg_of_pos hy hx
      simp [hq, hy, not_lt.mpr (le_of_lt hx)]
    · have hq : 0 ≤ dy / dx := div_nonneg hy (le_of_lt hx)
      simp [not_lt.mpr hq, not_lt.mpr hy, not_lt.mpr (le_of_lt hx)]

/-- A set sign bit means a quotient that is negative or zero; a clear one means a
quotient that is positive or zero. -/
theorem signbitDiv_sign (dy dx : ℚ) (hdx : dx ≠ 0) :
    (signbitDiv dy dx = true → dy / dx ≤ 0) ∧ (signbitDiv dy dx ≠ true → 0 ≤ dy / dx) := by
  constructor
  · intro h
    rcases (signbitDiv_iff dy dx hdx).mp h with hq | ⟨hy, _⟩
    · exact le_of_lt hq
    · subst hy
      simp
  · intro h
    by_contra hq
    exact h ((signbitDiv_iff dy dx hdx).mpr (Or.inl (not_le.mp hq)))

/-- With an `atan` that vanishes at 0, is negative on negative arguments and
non-negative on the others, the angle lies in `[90, 270]`. -/
theorem angleOf_quadrants (atan : ℚ → ℚ) (hneg : ∀ q : ℚ, q < 0 → atan q < 0)
    (hpos : ∀ q : ℚ, 0 ≤ q → 0 ≤ atan q) (hzero : atan 0 = 0) (dx dy : ℚ) :
    90 ≤ angleOf atan dx dy ∧ angleOf atan dx dy ≤ 270 := by
  by_cases hdx : dx = 0
  · subst hdx
    by_cases hdy : dy < 0
    · rw [angleOf_zero_neg atan dy hdy]; norm_num
    · rw [angleOf_zero_nonneg atan dy (not_lt.mp hdy)]; norm_num
  · have hc : 0 < 180 / M_PI := div_pos (by norm_num) M_PI_pos
    obtain ⟨hset, hclear⟩ := signbitDiv_sign dy dx hdx
    simp only [angleOf, hdx, if_false]
    by_cases hs : signbitDiv dy dx = true
    · have hat : atan (dy / dx) ≤ 0 := by
        rcases lt_or_eq_of_le (hset hs) with hq | hq
        · exact le_of_lt (hneg _ hq)
        · rw [hq, hzero]
      have ha : atan (dy / dx) * (180 / M_PI) ≤ 0 :=
        mul_nonpos_of_nonpos_of_nonneg hat (le_of_lt hc)
      rw [if_pos hs]
      simp only [max_def, min_def]
      split_ifs <;> constructor <;> linarith
    · have ha : 0 ≤ atan (dy / dx) * (180 / M_PI) :=
        mul_nonneg (hpos _ (hclear hs)) (le_of_lt hc)
      rw [if_neg hs]
      simp only [max_def, min_def]
      split_ifs <;> constructor <;> linarith

theorem binIndex_quadrants (angle : ℚ) (h0 : 90 ≤ angle) (h1 : angle ≤ 270) :
    9 ≤ binIndex angle ∧ binIndex angle ≤ 27 := by
  have hq : (0 : ℚ) ≤ angle / 10 := div_nonneg (by linarith) (by norm_num)
  have hlo : ((9 : Int) : ℚ) ≤ angle / 10 := by
    rw [le_div_iff₀ (by norm_num)]
    push_cast
    linarith
  have hhi : angle / 10 < ((28 : Int) : ℚ) := by
    rw [div_lt_iff₀ (by norm_num)]
    push_cast
    linarith
  simp only [binIndex, truncToInt, hq, if_true]
  have h28 : ⌊angle / 10⌋ < 28 := Int.floor_lt.mpr hhi
  exact ⟨Int.le_floor.mpr hlo, by omega⟩

/-- With `atan 0 = 0`, a gradient with `dy = 0` and `dx < 0` has angle 270: the
quotient is a negative zero, its sign bit is set. -/
theorem angleOf_zero_dy_neg_dx (atan : ℚ → ℚ) (h0 : atan 0 = 0) (dx : ℚ) (h : dx < 0) :
    angleOf atan dx 0 = 270 := by
  have hs : signbitDiv 0 dx = true := by
    simp [signbitDiv, h]
  simp only [angleOf, ne_of_lt h, if_false, hs, if_true, zero_div, h0, zero_mul]
  norm_num

/-- With the identity for `atan`, the gradient `(dx, dy) = (-1, 0)` has angle 270. -/
theorem angleOf_neg_zero : angleOf (fun q => q) (-1) 0 = 270 :=
  angleOf_zero_dy_neg_dx (fun q => q) rfl (-1) (by norm_num)

/-! ## Further facts on the finite differences and the set-up loop -/

/-- When `cv::getGaussianKernel(n, sigma)` returns an `n x 1` kernel, the weight
matrix of `create_smoothing_func` is `n x n`. -/
theorem gaussWeights_size (getGaussianKernel : Int → ℚ → Mat) (n : Int) (sigma : ℚ)
    (h : ((getGaussianKernel n sigma).rows : Int) = n) :
    ((gaussWeights getGaussianKernel n sigma).rows : Int) = n ∧
      ((gaussWeights getGaussianKernel n sigma).cols : Int) = n :=
  ⟨h, h⟩

/-- On a 2 x 3 image `delta_x` at the in-bounds pixel `(1, 0)` reads row 2. -/
theorem delta_x_wide_image : delta_x ⟨2, 3, fun r c => r + c⟩ 1 0 = none := by
  rw [delta_x_eq]
  simp [afterIndex, beforeIndex, delta, Mat.at]

/-- On a 1 x 1 image `delta_x` at the only pixel reads row 1. -/
theorem delta_x_single_pixel : delta_x ⟨1, 1, fun _ _ => 0⟩ 0 0 = none := by
  rw [delta_x_eq]
  simp [afterIndex, beforeIndex, delta, Mat.at]

/-- The sample pyramid has one octave; its field pyramids have two, the first
one empty. -/
theorem fieldOctaves_sample :
    (fieldOctaves sampleEnv sampleDog (FieldPyramids.init sampleDog.length)).mags_pyr.map
      List.length = [0, 3] := by
  simp [fieldOctaves, fieldLevels, FieldPyramids.init, sampleDog]

/-! ## Claims -/

/-- C1: for every image and every `nOctaves ≥ 1`, a call of `buildGaussianPyramid`
with an empty `pyr` returns, and leaves exactly `nOctaves` octaves of exactly
`S = GAUSSIAN_PYR_OCTAVE_SIZE` levels each (`S ≥ 3`, so that level `S-3` exists). -/
theorem buildGaussianPyramid_shape (GaussianBlur : Mat → ℚ → Mat) (downSample : Mat → Mat)
    (S : Nat) (sigma0 K : ℚ) (image : Mat) (nOctaves : Int)
    (hS : 3 ≤ S) (hn : 1 ≤ nOctaves) :
    ∃ out, buildGaussianPyramid GaussianBlur downSample S sigma0 K image [] nOctaves = some out ∧
      (out.length : Int) = nOctaves ∧ ∀ oct ∈ out, oct.length = S := by
  have hshape0 : GaussShape S 0 (resize ([] : List (List Mat)) nOctaves.toNat) := by
    intro k oct hk
    have hmem : oct ∈ resize ([] : List (List Mat)) nOctaves.toNat := List.getElem?_mem hk
    simp [resize] at hmem
    exact ⟨fun h => by omega, fun _ => by simp [hmem.2]⟩
  obtain ⟨out, hout, hlen, hsh⟩ := octaveLoop_shape GaussianBlur downSample S sigma0 K hS
    nOctaves.toNat 0 image (resize [] nOctaves.toNat) (by simp [resize]) hshape0
  refine ⟨out, ?_, by omega, ?_⟩
  · have : ¬ nOctaves < 0 := by omega
    simp only [buildGaussianPyramid, this, if_false]
    exact hout
  · intro oct hmem
    obtain ⟨k, hk, hkeq⟩ := List.getElem_of_mem hmem
    have hget : out[k]? = some oct := by rw [List.getElem?_eq_getElem hk, hkeq]
    exact (hsh k oct hget).1 (by omega)

/-- Witness of C1: three levels per octave, two octaves, on a 4 x 4 image. -/
theorem buildGaussianPyramid_shape_witness :
    3 ≤ 3 ∧ (1 : Int) ≤ 2 ∧
      ∃ out, buildGaussianPyramid (fun m _ => m) (fun m => ⟨m.rows / 2, m.cols / 2, m.data⟩)
          3 1 2 ⟨4, 4, fun r c => r + c⟩ [] 2 = some out ∧
        (out.length : Int) = 2 ∧ ∀ oct ∈ out, oct.length = 3 :=
  ⟨by decide, by decide,
    buildGaussianPyramid_shape (fun m _ => m) (fun m => ⟨m.rows / 2, m.cols / 2, m.data⟩)
      3 1 2 ⟨4, 4, fun r c => r + c⟩ 2 (by decide) (by decide)⟩

/-- C2: for every Gaussian pyramid whose octaves are all non-empty, `buildDogPyr`
returns a pyramid with the same number of octaves; octave `k` has one level less
than Gaussian octave `k`, and level `i` is Gaussian level `i+1` minus Gaussian
level `i`, upper minus lower. -/
theorem buildDogPyr_spec (matSub : Mat → Mat → Mat) (gauss_pyr : List (List Mat))
    (hne : ∀ oct ∈ gauss_pyr, oct.length ≠ 0) :
    ∃ dogs, buildDogPyr matSub gauss_pyr = some dogs ∧ dogs.length = gauss_pyr.length ∧
      ∀ (k : Nat) (oct : List Mat), gauss_pyr[k]? = some oct →
        ∃ dog, dogs[k]? = some dog ∧ dog.length = oct.length - 1 ∧
          ∀ (i : Nat) (lower upper : Mat), oct[i]? = some lower → oct[i + 1]? = some upper →
            dog[i]? = some (matSub upper lower) := by
  induction gauss_pyr with
  | nil => exact ⟨[], by simp [buildDogPyr], rfl, by simp⟩
  | cons octave rest ih =>
      obtain ⟨dog, hdog, hlen, hval⟩ :=
        dogOctave_spec matSub octave (hne octave (List.mem_cons_self _ _))
      obtain ⟨dogs, hdogs, hlens, hvals⟩ :=
        ih (fun oct h => hne oct (List.mem_cons_of_mem _ h))
      refine ⟨dog :: dogs, by simp [buildDogPyr, hdog, hdogs], by simp [hlens], ?_⟩
      intro k oct hk
      cases k with
      | zero =>
          simp only [List.getElem?_cons_zero, Option.some.injEq] at hk
          subst hk
          exact ⟨dog, by simp, hlen, hval⟩
      | succ k =>
          simp only [List.getElem?_cons_succ] at hk
          obtain ⟨d, hd, hdl, hdv⟩ := hvals k oct hk
          exact ⟨d, by simpa using hd, hdl, hdv⟩

/-- Witness of C2: one octave of three constant levels. -/
theorem buildDogPyr_spec_witness :
    (∀ oct ∈ [[(⟨1, 1, fun _ _ => 1⟩ : Mat), ⟨1, 1, fun _ _ => 3⟩, ⟨1, 1, fun _ _ => 7⟩]],
        oct.length ≠ 0) ∧
      ∃ dogs, buildDogPyr (fun a b => ⟨a.rows, a.cols, fun r c => a.data r c - b.data r c⟩)
          [[(⟨1, 1, fun _ _ => 1⟩ : Mat), ⟨1, 1, fun _ _ => 3⟩, ⟨1, 1, fun _ _ => 7⟩]] =
            some dogs ∧
        dogs.length = 1 :=
  have h : ∀ oct ∈ [[(⟨1, 1, fun _ _ => 1⟩ : Mat), ⟨1, 1, fun _ _ => 3⟩, ⟨1, 1, fun _ _ => 7⟩]],
      oct.length ≠ 0 := by simp
  ⟨h, (buildDogPyr_spec (fun a b => ⟨a.rows, a.cols, fun r c => a.data r c - b.data r c⟩)
    [[(⟨1, 1, fun _ _ => 1⟩ : Mat), ⟨1, 1, fun _ _ => 3⟩, ⟨1, 1, fun _ _ => 7⟩]] h).imp
      (fun _ hd => ⟨hd.1, hd.2.1⟩)⟩

/-- C3: for every DoG pyramid and every keypoint list, the list left by
`cleanPoints` is a subsequence of the input list: the survivors are input
keypoints, unchanged, each taken once, in their original relative order. -/
theorem cleanPoints_sublist (compute_keypoint_curvature : List (List Mat) → KeyPoint → ℚ)
    (KP_CURVATURE_THRESHOLD : ℚ) (image : Mat) (dog_pyr : List (List Mat))
    (keypoints : List KeyPoint) :
    List.Sublist
      (cleanPoints compute_keypoint_curvature KP_CURVATURE_THRESHOLD image dog_pyr keypoints)
      keypoints := by
  rw [cleanPoints_eq_filter]
  exact List.filter_sublist keypoints

/-- C4: `cleanPoints` keeps exactly the input keypoints whose curvature ratio is
at most `KP_CURVATURE_THRESHOLD`: the output is the input filtered by
`curv ≤ threshold`, so every survivor has ratio at most the threshold and every
input keypoint with such a ratio survives, whatever its response. -/
theorem cleanPoints_keeps_iff (compute_keypoint_curvature : List (List Mat) → KeyPoint → ℚ)
    (KP_CURVATURE_THRESHOLD : ℚ) (image : Mat) (dog_pyr : List (List Mat))
    (keypoints : List KeyPoint) :
    cleanPoints compute_keypoint_curvature KP_CURVATURE_THRESHOLD image dog_pyr keypoints =
        keypoints.filter (fun kp =>
          decide (compute_keypoint_curvature dog_pyr kp ≤ KP_CURVATURE_THRESHOLD)) ∧
      ∀ kp : KeyPoint,
        kp ∈ cleanPoints compute_keypoint_curvature KP_CURVATURE_THRESHOLD image dog_pyr
            keypoints ↔
          kp ∈ keypoints ∧ compute_keypoint_curvature dog_pyr kp ≤ KP_CURVATURE_THRESHOLD := by
  have hfilter : cleanPoints compute_keypoint_curvature KP_CURVATURE_THRESHOLD image dog_pyr
      keypoints = keypoints.filter (fun kp =>
        decide (compute_keypoint_curvature dog_pyr kp ≤ KP_CURVATURE_THRESHOLD)) := by
    rw [cleanPoints_eq_filter]
    congr 1
    funext kp
    by_cases h : compute_keypoint_curvature dog_pyr kp ≤ KP_CURVATURE_THRESHOLD
    · simp [h, not_lt.mpr h]
    · simp [h, not_le.mp h]
  refine ⟨hfilter, ?_⟩
  intro kp
  rw [hfilter, List.mem_filter]
  simp

/-- C5 (evaluation at the failing input): for an octave with zero levels the
bound `octave_dog.size() - 1` wraps to `2^64 - 1`, the loop body is entered with
`image = 1` and reads `octave_dog[0]`, `octave_dog[1]`, `octave_dog[2]` of an empty
vector: the call has no defined result. -/
theorem getScaleSpaceExtrema_empty_octave (toFloat : ℚ → ℚ) (compute_octave_sigma : Nat → ℚ)
    (find_local_extremas : Mat → Mat → Mat → List (Int × Int))
    (rest : List (List Mat)) (keypoints : List KeyPoint) :
    1 < levelBound 0 ∧
      getScaleSpaceExtrema toFloat compute_octave_sigma find_local_extremas ([] :: rest)
        keypoints = none := by
  have hb : levelBound 0 - 1 = (2 ^ 64 - 3) + 1 := by rw [levelBound_zero]; norm_num
  refine ⟨by rw [levelBound_zero]; norm_num, ?_⟩
  simp only [getScaleSpaceExtrema, octaveScan, List.length_nil]
  rw [hb]
  simp [levelLoop]

/-- C6 (counterexample): with the binary32 rounding for the conversion to `float`,
the keypoint of the point `(16777217, 1)` has `x = 16777216`, not the row of the
point; and on a pyramid whose second octave is empty no keypoint list is
returned, although the search reports the centre pixel of level 1 of octave 0. -/
theorem getScaleSpaceExtrema_counterexample :
    deepPixel tallMat tallMat tallMat = [(16777217, 1)] ∧
      (getScaleSpaceExtrema float32 (fun _ => 1) deepPixel [[tallMat, tallMat, tallMat]] []).map
        (List.map (fun kp => kp.x)) = some [16777216] ∧
      centrePixel (rampMat 1) (rampMat 2) (rampMat 3) = [(1, 1)] ∧
      getScaleSpaceExtrema (fun q => q) (fun o => 2 ^ o) centrePixel
        [[rampMat 1, rampMat 2, rampMat 3], []] [] = none := by
  refine ⟨by simp [deepPixel, tallMat], ?_, by simp [centrePixel, rampMat], ?_⟩
  · simp [getScaleSpaceExtrema, octaveScan, levelBound, levelLoop, deepPixel, tallMat,
      pointLoop, Mat.at, mkKeyPoint, float32_16777217]
  · have h1 : levelLoop (fun q => q) centrePixel [rampMat 1, rampMat 2, rampMat 3]
        ((fun o => (2 : ℚ) ^ o) 0) 0 (levelBound [rampMat 1, rampMat 2, rampMat 3].length - 1) 1
        [] = some [sampleKeyPoint] := by
      simp [levelBound, levelLoop, centrePixel, rampMat, pointLoop, Mat.at, mkKeyPoint,
        sampleKeyPoint, wrap32_zero]
      norm_num
    unfold getScaleSpaceExtrema
    rw [octaveScan, h1]
    exact octaveScan_empty_octave _ _ _ _ _ _

/-- C6 (amended): on a DoG pyramid without empty octave, with an extrema search
that reports points inside the centre level, `getScaleSpaceExtrema` returns and
appends, for every point `p = (r, c)` the search reports for a centre level `i`
(a level with a level below and a level above) of octave `o`, a keypoint whose
fields are the values converted by the constructor of `cv::KeyPoint`:
`x = float(r)`, `y = float(c)`, `angle = float(i)`, `octave = int(o)`,
`size = float(compute_octave_sigma o)` and `response = float(v)` for the sample `v`
of `DoG[o][i]` at `(r, c)`. -/
theorem getScaleSpaceExtrema_keypoints (toFloat : ℚ → ℚ) (compute_octave_sigma : Nat → ℚ)
    (find_local_extremas : Mat → Mat → Mat → List (Int × Int))
    (dog_pyr : List (List Mat)) (keypoints : List KeyPoint)
    (hne : ∀ oct ∈ dog_pyr, oct.length ≠ 0)
    (hfle : ∀ (a b c : Mat), ∀ p ∈ find_local_extremas a b c, ∃ v, b.at p.1 p.2 = some v) :
    ∃ added, getScaleSpaceExtrema toFloat compute_octave_sigma find_local_extremas dog_pyr
        keypoints = some (keypoints ++ added) ∧
      ∀ (o : Nat) (oct : List Mat) (i : Nat) (below centre above : Mat),
        dog_pyr[o]? = some oct → 1 ≤ i →
        oct[i - 1]? = some below → oct[i]? = some centre → oct[i + 1]? = some above →
        ∀ p ∈ find_local_extremas below centre above,
          ∃ kp ∈ added, kp.x = toFloat p.1 ∧ kp.y = toFloat p.2 ∧ kp.angle = toFloat i ∧
            kp.octave = wrap32 o ∧ kp.size = toFloat (compute_octave_sigma o) ∧
            ∃ v, centre.at p.1 p.2 = some v ∧ kp.response = toFloat v := by
  obtain ⟨added, hrun, hmem⟩ := octaveScan_spec toFloat compute_octave_sigma
    find_local_extremas hfle dog_pyr 0 keypoints hne
  refine ⟨added, hrun, ?_⟩
  intro o oct i below centre above ho hi hbelow hcentre habove p hp
  have hlen : i + 1 < oct.length := by
    by_contra hge
    rw [List.getElem?_eq_none (by omega)] at habove
    cases habove
  obtain ⟨v, hv, hvm⟩ := hmem o oct i below centre above ho hi
    (levelBound_covers oct.length i hlen) hbelow hcentre habove p hp
  rw [Nat.zero_add] at hvm
  refine ⟨mkKeyPoint toFloat p (compute_octave_sigma o) i v o, hvm, ?_⟩
  simp only [mkKeyPoint, true_and]
  exact ⟨v, hv, rfl⟩

/-- Witness of C6 (amended): one octave of three 3 x 3 levels, the search reporting
the centre pixel, an exact conversion to `float`. -/
theorem getScaleSpaceExtrema_keypoints_witness :
    (∀ oct ∈ sampleDog, oct.length ≠ 0) ∧
    (∀ (a b c : Mat), ∀ p ∈ centrePixel a b c, ∃ v, b.at p.1 p.2 = some v) ∧
    ∃ added, getScaleSpaceExtrema (fun q => q) (fun o => 2 ^ o) centrePixel sampleDog [] =
        some ([] ++ added) ∧
      ∀ (o : Nat) (oct : List Mat) (i : Nat) (below centre above : Mat),
        sampleDog[o]? = some oct → 1 ≤ i →
        oct[i - 1]? = some below → oct[i]? = some centre → oct[i + 1]? = some above →
        ∀ p ∈ centrePixel below centre above,
          ∃ kp ∈ added, kp.x = (fun q : ℚ => q) p.1 ∧ kp.y = (fun q : ℚ => q) p.2 ∧
            kp.angle = (fun q : ℚ => q) i ∧ kp.octave = wrap32 o ∧
            kp.size = (fun q : ℚ => q) ((fun o => (2 : ℚ) ^ o) o) ∧
            ∃ v, centre.at p.1 p.2 = some v ∧ kp.response = (fun q : ℚ => q) v :=
  have hne : ∀ oct ∈ sampleDog, oct.length ≠ 0 := by simp [sampleDog]
  have hfle : ∀ (a b c : Mat), ∀ p ∈ centrePixel a b c, ∃ v, b.at p.1 p.2 = some v := by
    intro a b c p hp
    unfold centrePixel at hp
    split at hp
    · next h =>
        simp only [List.mem_singleton] at hp
        subst hp
        refine ⟨b.data 1 1, ?_⟩
        have h1 : (1 : Int) < b.rows := by exact_mod_cast h.1
        have h2 : (1 : Int) < b.cols := by exact_mod_cast h.2
        simp [Mat.at, h1, h2]
    · simp at hp
  ⟨hne, hfle,
    getScaleSpaceExtrema_keypoints (fun q => q) (fun o => 2 ^ o) centrePixel sampleDog []
      hne hfle⟩

/-- C7 (behaviour on every input of the claim with at least one keypoint): the
pyramids of lazy fields are constructed with `n` empty octaves and the `n` octaves
of fields are appended behind them, so for a keypoint with a valid octave index
`mags_pyr[kp.octave]` is an empty vector and `mags_pyr[kp.octave][kp.angle]` is
out of range: no histogram list is returned. -/
theorem computeOrientationHist_valid_undefined (env : Env) (dogs_pyr : List (List Mat))
    (kps : List KeyPoint) (hne : kps ≠ []) (hvalid : ∀ kp ∈ kps, validKeyPoint dogs_pyr kp) :
    computeOrientationHist env dogs_pyr kps = none := by
  cases kps with
  | nil => exact absurd rfl hne
  | cons kp rest =>
      obtain ⟨h0, h1⟩ := validKeyPoint_octave dogs_pyr kp (hvalid kp (List.mem_cons_self _ _))
      exact kpLoop_octave_in_range env dogs_pyr kp rest [] h0 h1

/-- Witness of C7: the keypoint reported on the one-octave sample pyramid. -/
theorem computeOrientationHist_valid_undefined_witness :
    [sampleKeyPoint] ≠ [] ∧ (∀ kp ∈ [sampleKeyPoint], validKeyPoint sampleDog kp) ∧
      computeOrientationHist sampleEnv sampleDog [sampleKeyPoint] = none :=
  have hvalid : ∀ kp ∈ [sampleKeyPoint], validKeyPoint sampleDog kp := by
    intro kp hkp
    simp only [List.mem_singleton] at hkp
    subst hkp
    refine ⟨[rampMat 1, rampMat 2, rampMat 3], rampMat 2, ?_, ?_, ?_⟩
    · simp [vecAt, sampleDog, sampleKeyPoint]
    · simp [vecAt, truncToInt, sampleKeyPoint]
    · norm_num [sampleKeyPoint, rampMat]
  ⟨by simp, hvalid,
    computeOrientationHist_valid_undefined sampleEnv sampleDog [sampleKeyPoint] (by simp) hvalid⟩

/-- C8 (evaluation at a failing input): with non-negative magnitudes and
non-negative kernel weights, a valid keypoint of octave 1 of a two-octave
pyramid gets no histogram: the lookup `mags_pyr[1][1]` reads an empty octave. -/
theorem computeOrientationHist_no_histogram :
    (∀ a b : ℚ, 0 ≤ sampleEnv.hypot a b) ∧
      (∀ (n : Int) (sigma : ℚ) (r c : Nat), 0 ≤ (sampleEnv.getGaussianKernel n sigma).data r c) ∧
      validKeyPoint sampleDog2 sampleKeyPoint2 ∧
      computeOrientationHist sampleEnv sampleDog2 [sampleKeyPoint2] = none := by
  refine ⟨?_, ?_, ?_, ?_⟩
  · intro a b
    simp only [sampleEnv]
    positivity
  · intro n sigma r c
    simp [sampleEnv]
  · refine ⟨[rampMat 2, rampMat 4, rampMat 8], rampMat 4, ?_, ?_, ?_⟩
    · simp [vecAt, sampleDog2, sampleKeyPoint2]
    · simp [vecAt, truncToInt, sampleKeyPoint2]
    · norm_num [sampleKeyPoint2, rampMat]
  · exact kpLoop_octave_in_range sampleEnv sampleDog2 sampleKeyPoint2 [] []
      (by simp [sampleKeyPoint2]) (by simp [sampleKeyPoint2, sampleDog2])

/-- C9: for every pair of gradient values the angle lies in `[0, 359]` and the
bucket index `static_cast<int>(angle / 10)` lies in `[0, 35]`. -/
theorem angleOf_binIndex_range (atan : ℚ → ℚ) (dx dy : ℚ) :
    (0 ≤ angleOf atan dx dy ∧ angleOf atan dx dy ≤ 359) ∧
      (0 ≤ binIndex (angleOf atan dx dy) ∧ binIndex (angleOf atan dx dy) ≤ 35) := by
  obtain ⟨h0, h1⟩ := angleOf_range atan dx dy
  refine ⟨⟨h0, h1⟩, ?_⟩
  have hq : 0 ≤ angleOf atan dx dy / 10 := div_nonneg h0 (by norm_num)
  have hlt : angleOf atan dx dy / 10 < ((36 : Int) : ℚ) := by
    rw [div_lt_iff₀ (by norm_num)]
    push_cast
    linarith
  simp only [binIndex, truncToInt, hq, if_true]
  have h36 : ⌊angleOf atan dx dy / 10⌋ < 36 := Int.floor_lt.mpr hlt
  exact ⟨Int.floor_nonneg.mpr hq, by omega⟩

/-- C10 (counterexample): for `dx = 0` the angle of `dy = -1` is not 270 and the
angle of `dy = 1` is not 90. -/
theorem angleOf_zero_dx_counterexample :
    angleOf (fun _ => 0) 0 (-1) ≠ 270 ∧ angleOf (fun _ => 0) 0 1 ≠ 90 := by
  rw [angleOf_zero_neg _ (-1) (by norm_num), angleOf_zero_nonneg _ 1 (by norm_num)]
  norm_num

/-- C10 (amended): when `dx = 0` and `dy < 0` the angle function returns 90
degrees. -/
theorem angleOf_zero_dx_negative (atan : ℚ → ℚ) (dy : ℚ) (h : dy < 0) :
    angleOf atan 0 dy = 90 :=
  angleOf_zero_neg atan dy h

/-- Witness of C10 (amended): `angle(dx = 0, dy = -1) = 90`. -/
theorem angleOf_zero_dx_negative_witness :
    (-1 : ℚ) < 0 ∧ angleOf (fun _ => 0) 0 (-1) = 90 :=
  ⟨by norm_num, angleOf_zero_dx_negative (fun _ => 0) (-1) (by norm_num)⟩

/-- C11 (counterexample): at `dx = -1`, `dy = 0` the quotient `dy/dx` is a negative
zero: it is not negative, so the formula of the specification gives 90, but its
sign bit is set and the code adds 180 and returns 270 (`atan` is the identity
here, and `atan 0 = 0`). -/
theorem angleOf_formula_counterexample :
    angleOf (fun q => q) (-1) 0 = 270 ∧ angleFormula (fun q => q) (-1) 0 = 90 := by
  refine ⟨angleOf_neg_zero, ?_⟩
  norm_num [angleFormula, clampTo]

/-- C11 (amended): for every `dx ≠ 0` and every `dy` the angle function returns
`clamp(clamp(atan(dy/dx) in degrees, -90, 90) + 90 + (180 if the sign bit of dy/dx
is set, else 0), 0, 359)`, the sign bit being set when `dy/dx` is negative and when
`dy = 0` with `dx < 0`; with `atan 0 = 0` this gives `angle(dx=1, dy=0) = 90`. -/
theorem angleOf_eq_signbit_formula (atan : ℚ → ℚ) (dx dy : ℚ) (hdx : dx ≠ 0)
    (h0 : atan 0 = 0) :
    angleOf atan dx dy = angleFormulaSignBit atan dx dy ∧ angleOf atan 1 0 = 90 := by
  constructor
  · simp only [angleOf, angleFormulaSignBit, clampTo, hdx, if_false]
    by_cases hs : signbitDiv dy dx = true
    · rw [if_pos hs, if_pos ((signbitDiv_iff dy dx hdx).mp hs)]
    · rw [if_neg hs, if_neg (fun h => hs ((signbitDiv_iff dy dx hdx).mpr h)), add_zero]
  · have hs : signbitDiv 0 1 ≠ true := by
      simp [signbitDiv]
    simp only [angleOf, one_ne_zero, if_false, div_one, h0, zero_mul, hs]
    norm_num

/-- Witness of C11 (amended): `atan` replaced by the identity, at `dx = -2`, `dy = 0`,
where the sign bit of the quotient is set. -/
theorem angleOf_eq_signbit_formula_witness :
    (-2 : ℚ) ≠ 0 ∧ (fun q : ℚ => q) 0 = 0 ∧
      angleOf (fun q => q) (-2) 0 = angleFormulaSignBit (fun q => q) (-2) 0 ∧
      angleOf (fun q => q) 1 0 = 90 :=
  ⟨by norm_num, rfl, angleOf_eq_signbit_formula (fun q => q) (-2) 0 (by norm_num) rfl⟩

/-- C12: with `blur` and `downSample` as given functions, `buildGaussianPyramid`
started on an empty `pyr` returns the reference pyramid: `base_0 = image`,
`pyr[o][i] = blur(base_o, sigma0 * K^i)` with every level blurred from the base
of its octave, and `base_(o+1) = downSample(pyr[o][S-3])`. -/
theorem buildGaussianPyramid_eq_ref (GaussianBlur : Mat → ℚ → Mat) (downSample : Mat → Mat)
    (S : Nat) (sigma0 K : ℚ) (image : Mat) (nOctaves : Int) (hS : 3 ≤ S) (hn : 0 ≤ nOctaves) :
    buildGaussianPyramid GaussianBlur downSample S sigma0 K image [] nOctaves =
      some (refPyramid GaussianBlur downSample S sigma0 K image nOctaves.toNat) := by
  have h := octaveLoop_eq_ref GaussianBlur downSample S sigma0 K image hS nOctaves.toNat 0 [] rfl
  simp only [List.nil_append, refBase] at h
  have hneg : ¬ nOctaves < 0 := by omega
  simp only [buildGaussianPyramid, hneg, if_false, resize, List.take_nil, List.length_nil,
    Nat.sub_zero, List.nil_append, refPyramid, List.range_eq_range']
  exact h

/-- Witness of C12: three levels per octave, two octaves, on the 3 x 3 ramp. -/
theorem buildGaussianPyramid_eq_ref_witness :
    3 ≤ 3 ∧ (0 : Int) ≤ 2 ∧
      buildGaussianPyramid (fun m s => ⟨m.rows, m.cols, fun r c => m.data r c + s⟩)
          (fun m => ⟨m.rows / 2, m.cols / 2, m.data⟩) 3 1 2 (rampMat 1) [] 2 =
        some (refPyramid (fun m s => ⟨m.rows, m.cols, fun r c => m.data r c + s⟩)
          (fun m => ⟨m.rows / 2, m.cols / 2, m.data⟩) 3 1 2 (rampMat 1) (2 : Int).toNat) :=
  ⟨by decide, by decide,
    buildGaussianPyramid_eq_ref (fun m s => ⟨m.rows, m.cols, fun r c => m.data r c + s⟩)
      (fun m => ⟨m.rows / 2, m.cols / 2, m.data⟩) 3 1 2 (rampMat 1) 2 (by decide) (by decide)⟩

/-- C13 (counterexample): with `S = 3` and `nOctaves = 1`, the call on a `pyr` that
already holds one octave of one image leaves four levels in octave 0, the stale
image in front, while the call on an empty `pyr` leaves three: the two final
states differ. -/
theorem buildGaussianPyramid_prior_content_survives :
    buildGaussianPyramid (fun m _ => m) (fun m => m) 3 1 2 (rampMat 1) [] 1 ≠
        buildGaussianPyramid (fun m _ => m) (fun m => m) 3 1 2 (rampMat 1) [[rampMat 7]] 1 ∧
      (buildGaussianPyramid (fun m _ => m) (fun m => m) 3 1 2 (rampMat 1) [[rampMat 7]] 1).map
        (List.map List.length) = some [4] := by
  constructor
  · intro h
    have h' := congrArg (Option.map (List.map List.length)) h
    simp [buildGaussianPyramid, octaveLoop, blurLevels, resize, vecAt] at h'
  · simp [buildGaussianPyramid, octaveLoop, blurLevels, resize, vecAt]

/-- C13 (amended): for every image, every `nOctaves ≥ 1` and every two initial
contents of `pyr` whose first `nOctaves` octaves are empty, the two calls return
and leave `pyr` in the same final state. -/
theorem buildGaussianPyramid_empty_prefix (GaussianBlur : Mat → ℚ → Mat)
    (downSample : Mat → Mat) (S : Nat) (sigma0 K : ℚ) (image : Mat) (nOctaves : Int)
    (pyr1 pyr2 : List (List Mat)) (hS : 3 ≤ S) (hn : 1 ≤ nOctaves)
    (h1 : ∀ oct ∈ pyr1.take nOctaves.toNat, oct = [])
    (h2 : ∀ oct ∈ pyr2.take nOctaves.toNat, oct = []) :
    ∃ out, buildGaussianPyramid GaussianBlur downSample S sigma0 K image pyr1 nOctaves =
          some out ∧
        buildGaussianPyramid GaussianBlur downSample S sigma0 K image pyr2 nOctaves =
          some out := by
  have href := octaveLoop_eq_ref GaussianBlur downSample S sigma0 K image hS nOctaves.toNat 0 []
    rfl
  simp only [List.nil_append, refBase] at href
  have hneg : ¬ nOctaves < 0 := by omega
  refine ⟨(List.range' 0 nOctaves.toNat).map (refOctave GaussianBlur downSample S sigma0 K image),
    ?_, ?_⟩
  · simp only [buildGaussianPyramid, hneg, if_false, resize_of_empty_prefix pyr1 _ h1]
    exact href
  · simp only [buildGaussianPyramid, hneg, if_false, resize_of_empty_prefix pyr2 _ h2]
    exact href

/-- Witness of C13 (amended): an empty `pyr` and a `pyr` of three empty octaves,
two octaves requested. -/
theorem buildGaussianPyramid_empty_prefix_witness :
    3 ≤ 3 ∧ (1 : Int) ≤ 2 ∧
      (∀ oct ∈ ([] : List (List Mat)).take (2 : Int).toNat, oct = []) ∧
      (∀ oct ∈ ([[], [], []] : List (List Mat)).take (2 : Int).toNat, oct = []) ∧
      ∃ out, buildGaussianPyramid (fun m _ => m) (fun m => m) 3 1 2 (rampMat 1) [] 2 =
            some out ∧
          buildGaussianPyramid (fun m _ => m) (fun m => m) 3 1 2 (rampMat 1) [[], [], []] 2 =
            some out :=
  have h1 : ∀ oct ∈ ([] : List (List Mat)).take (2 : Int).toNat, oct = [] := by simp
  have h2 : ∀ oct ∈ ([[], [], []] : List (List Mat)).take (2 : Int).toNat, oct = [] := by
    intro oct hoct
    have h2' : (2 : Int).toNat = 2 := rfl
    rw [h2'] at hoct
    simp at hoct
    exact hoct
  ⟨by decide, by decide, h1, h2,
    buildGaussianPyramid_empty_prefix (fun m _ => m) (fun m => m) 3 1 2 (rampMat 1) 2 [] [[], [], []]
      (by decide) (by decide) h1 h2⟩

/-- C14 (counterexample): at the in-bounds pixel `(1, 1)` of a 3 x 3 image, which is
not at the right edge, the code uses the "before" index 0 where the rule of the
specification gives 1; on the ramp image `delta_x` is `1 - 3 = -2`, the stated
rule would give `2 - 3 = -1`. -/
theorem delta_x_before_counterexample :
    beforeIndex 1 = 0 ∧ claimedBefore ((rampMat 1).cols : Int) 1 = 1 ∧
      delta_x (rampMat 1) 1 1 = some (-2) ∧
      delta (rampMat 1) (claimedAfter ((rampMat 1).cols : Int) 1) 1
        (claimedBefore ((rampMat 1).cols : Int) 1) 1 = some (-1) := by
  have h2 : Int.toNat 2 = 2 := rfl
  refine ⟨by decide, by decide, ?_, ?_⟩
  · rw [delta_x_eq]
    norm_num [afterIndex, beforeIndex, delta, Mat.at, rampMat, h2]
  · norm_num [claimedAfter, claimedBefore, delta, Mat.at, rampMat, h2]

/-- C14 (amended): `delta_x(image, x, y)` is the sample at `(before, y)` minus the
sample at `(after, y)` and `delta_y(image, x, y)` is the sample at `(x, below)` minus
the sample at `(x, above)`, where the "after" index is the next index while the
coordinate is below `bound - 1` (`image.cols` for `delta_x`, `image.rows` for
`delta_y`) and the current index from there on, and the "before" index is the
fixed index 0 for a positive coordinate and the fixed index 1 for coordinate 0. -/
theorem delta_index_rule (image : Mat) (x y : Int) :
    delta_x image x y =
        (match image.at (if 0 < x then 0 else 1) y,
            image.at (if x < (image.cols : Int) - 1 then x + 1 else x) y with
          | some before, some after => some (before - after)
          | _, _ => none) ∧
      delta_y image x y =
        (match image.at x (if 0 < y then 0 else 1),
            image.at x (if y < (image.rows : Int) - 1 then y + 1 else y) with
          | some below, some above => some (below - above)
          | _, _ => none) := by
  constructor
  · rw [delta_x_eq]
    unfold delta afterIndex beforeIndex
    rfl
  · rw [delta_y_eq]
    unfold delta afterIndex beforeIndex
    rfl

/-- C15 (evaluation at the failing input): the member `kernel_size` of a constructed
`Neighbourhood` is whatever the unassigned member holds, for every input; with
memory content 0 and `scale = 1` it is 0, even, while the size the constructor
computes in its local variable is 5. -/
theorem Neighbourhood_kernel_size_unassigned (indet num_rows num_columns row col : Int)
    (scale : ℚ) :
    (Neighbourhood.new indet num_rows num_columns row col scale).kernel_size = indet ∧
      (Neighbourhood.new 0 10 10 5 5 1).kernel_size = 0 ∧ oddKernelSize 1 5 = 5 := by
  refine ⟨rfl, rfl, ?_⟩
  have h : toInt32 (max (3 * 1) 5) = 5 := by
    norm_num [toInt32, truncToInt]
  simp only [oddKernelSize, h]
  decide

/-- C16 (counterexample): at scale `10^10` the product `3 * scale` does not fit an
`int`; the window of the centre `(5, 5)` of a 10 x 10 image starts at row
1073741828, below the centre row. With `2^31 - 1` rows, the centre row `2^31 - 2`
and scale 1 the sum `row + half` leaves the range of `int` and the window ends at
row `-(2^31) + 1`. -/
theorem Neighbourhood_window_counterexample :
    (Neighbourhood.new 0 10 10 5 5 10000000000).row_start = 1073741828 ∧
      ¬ ((Neighbourhood.new 0 10 10 5 5 10000000000).row_start ≤ 5) ∧
      (Neighbourhood.new 0 2147483647 10 2147483646 5 1).row_end = -2147483647 ∧
      ¬ (2147483646 < (Neighbourhood.new 0 2147483647 10 2147483646 5 1).row_end) := by
  have h1 : (Neighbourhood.new 0 10 10 5 5 10000000000).row_start = 1073741828 := by
    rw [Neighbourhood_new_eq, oddKernelSize_overflow]
    decide
  have hk : oddKernelSize 1 5 = 5 := by
    have h : toInt32 (max (3 * 1) 5) = 5 := by
      norm_num [toInt32, truncToInt]
    simp only [oddKernelSize, h]
    decide
  have h2 : (Neighbourhood.new 0 2147483647 10 2147483646 5 1).row_end = -2147483647 := by
    rw [Neighbourhood_new_eq, hk]
    decide
  refine ⟨h1, ?_, h2, ?_⟩
  · rw [h1]; decide
  · rw [h2]; decide

/-- C16 (amended): for `int` arguments with the centre `(row, col)` inside the
`num_rows x num_columns` image, `3 * scale` below `2^31` and the sums
`row + half + 1`, `col + half + 1` below `2^31`, the window of the constructed
`Neighbourhood` satisfies `0 ≤ row_start ≤ row < row_end ≤ num_rows` and
`0 ≤ col_start ≤ col < col_end ≤ num_columns`, its side lengths are at most the odd
size `k = 2 * half + 1` the constructor computes, and every offset
`(i - row_start, j - col_start)` of a window position lies in `[0, k) x [0, k)`. -/
theorem Neighbourhood_window (indet num_rows num_columns row col : Int) (scale : ℚ)
    (hrow : 0 ≤ row ∧ row < num_rows) (hcol : 0 ≤ col ∧ col < num_columns)
    (hint : num_rows < 2 ^ 31 ∧ num_columns < 2 ^ 31)
    (hscale : 3 * scale < 2 ^ 31)
    (hsum : row + (oddKernelSize scale 5).tdiv 2 + 1 < 2 ^ 31 ∧
      col + (oddKernelSize scale 5).tdiv 2 + 1 < 2 ^ 31) :
    (oddKernelSize scale 5 % 2 = 1 ∧
        oddKernelSize scale 5 = 2 * (oddKernelSize scale 5).tdiv 2 + 1) ∧
      (0 ≤ (Neighbourhood.new indet num_rows num_columns row col scale).row_start ∧
        (Neighbourhood.new indet num_rows num_columns row col scale).row_start ≤ row ∧
        row < (Neighbourhood.new indet num_rows num_columns row col scale).row_end ∧
        (Neighbourhood.new indet num_rows num_columns row col scale).row_end ≤ num_rows) ∧
      (0 ≤ (Neighbourhood.new indet num_rows num_columns row col scale).col_start ∧
        (Neighbourhood.new indet num_rows num_columns row col scale).col_start ≤ col ∧
        col < (Neighbourhood.new indet num_rows num_columns row col scale).col_end ∧
        (Neighbourhood.new indet num_rows num_columns row col scale).col_end ≤ num_columns) ∧
      ((Neighbourhood.new indet num_rows num_columns row col scale).row_end -
          (Neighbourhood.new indet num_rows num_columns row col scale).row_start ≤
            oddKernelSize scale 5 ∧
        (Neighbourhood.new indet num_rows num_columns row col scale).col_end -
          (Neighbourhood.new indet num_rows num_columns row col scale).col_start ≤
            oddKernelSize scale 5) ∧
      ∀ i ∈ intRange (Neighbourhood.new indet num_rows num_columns row col scale).row_start
          (Neighbourhood.new indet num_rows num_columns row col scale).row_end,
        ∀ j ∈ intRange (Neighbourhood.new indet num_rows num_columns row col scale).col_start
            (Neighbourhood.new indet num_rows num_columns row col scale).col_end,
          (0 ≤ i - (Neighbourhood.new indet num_rows num_columns row col scale).row_start ∧
            i - (Neighbourhood.new indet num_rows num_columns row col scale).row_start <
              oddKernelSize scale 5) ∧
          (0 ≤ j - (Neighbourhood.new indet num_rows num_columns row col scale).col_start ∧
            j - (Neighbourhood.new indet num_rows num_columns row col scale).col_start <
              oddKernelSize scale 5) := by
  obtain ⟨⟨hk5, hklt⟩, hkodd, hkhalf⟩ := oddKernelSize_odd scale hscale
  obtain ⟨hr0, hr1⟩ := hrow
  obtain ⟨hc0, hc1⟩ := hcol
  obtain ⟨hnr, hnc⟩ := hint
  obtain ⟨hsr, hsc⟩ := hsum
  rw [Neighbourhood_new_eq]
  generalize oddKernelSize scale 5 = k at hk5 hklt hkodd hkhalf hsr hsc
  generalize k.tdiv 2 = half at hkhalf hsr hsc
  simp only
  rw [wrap32_of_range (row - half) (by omega) (by omega),
    wrap32_of_range (row + half) (by omega) (by omega),
    wrap32_of_range (num_rows - 1) (by omega) (by omega),
    wrap32_of_range (col - half) (by omega) (by omega),
    wrap32_of_range (col + half) (by omega) (by omega),
    wrap32_of_range (num_columns - 1) (by omega) (by omega)]
  have hrows : (0 ≤ (if row > half then row - half else 0) ∧
      (if row > half then row - half else 0) ≤ row ∧
      row < (if row + half < num_rows - 1 then row + half + 1 else num_rows) ∧
      (if row + half < num_rows - 1 then row + half + 1 else num_rows) ≤ num_rows) ∧
      (if row + half < num_rows - 1 then row + half + 1 else num_rows) -
        (if row > half then row - half else 0) ≤ k := by
    split <;> split <;> omega
  have hcols : (0 ≤ (if col > half then col - half else 0) ∧
      (if col > half then col - half else 0) ≤ col ∧
      col < (if col + half < num_columns - 1 then col + half + 1 else num_columns) ∧
      (if col + half < num_columns - 1 then col + half + 1 else num_columns) ≤ num_columns) ∧
      (if col + half < num_columns - 1 then col + half + 1 else num_columns) -
        (if col > half then col - half else 0) ≤ k := by
    split <;> split <;> omega
  refine ⟨⟨hkodd, hkhalf⟩, hrows.1, hcols.1, ⟨hrows.2, hcols.2⟩, ?_⟩
  intro i hi j hj
  rw [mem_intRange] at hi hj
  omega

/-- Witness of C16 (amended): centre `(5, 5)` of a 10 x 10 image at scale 1. -/
theorem Neighbourhood_window_witness :
    ((0 : Int) ≤ 5 ∧ (5 : Int) < 10) ∧ ((10 : Int) < 2 ^ 31 ∧ (10 : Int) < 2 ^ 31) ∧
      (3 * (1 : ℚ) < 2 ^ 31) ∧
      (5 + (oddKernelSize 1 5).tdiv 2 + 1 < 2 ^ 31 ∧ 5 + (oddKernelSize 1 5).tdiv 2 + 1 < 2 ^ 31) ∧
      (0 ≤ (Neighbourhood.new 0 10 10 5 5 1).row_start ∧
        (Neighbourhood.new 0 10 10 5 5 1).row_start ≤ 5 ∧
        5 < (Neighbourhood.new 0 10 10 5 5 1).row_end ∧
        (Neighbourhood.new 0 10 10 5 5 1).row_end ≤ 10) :=
  have hk : oddKernelSize 1 5 = 5 := by
    have h : toInt32 (max (3 * 1) 5) = 5 := by
      norm_num [toInt32, truncToInt]
    simp only [oddKernelSize, h]
    decide
  have hsum : 5 + (oddKernelSize 1 5).tdiv 2 + 1 < 2 ^ 31 ∧
      5 + (oddKernelSize 1 5).tdiv 2 + 1 < 2 ^ 31 := by
    rw [hk]
    decide
  ⟨by decide, by decide, by norm_num, hsum,
    (Neighbourhood_window 0 10 10 5 5 1 (by decide) (by decide) (by decide) (by norm_num)
      hsum).2.1⟩

/-- C17 (evaluation at the failing input): the constructor leaves `is_computed` and
`values` empty, so on a matrix built from any generator with any dimensions the
first `at(x, y)` indexes an empty vector, for every `(x, y)`: no value is returned. -/
theorem LazyMat_at_fresh_undefined (f : Int → Int → Option ℚ) (rows cols x y : Int) :
    (LazyMat.new f rows cols).is_computed = [] ∧ (LazyMat.new f rows cols).at x y = none := by
  refine ⟨rfl, ?_⟩
  simp only [LazyMat.at, LazyMat.new, vecAt_nil]

/-- C18 (behaviour of the set-up loop): for a DoG pyramid of `n` octaves each of the
four pyramids of lazy fields holds `2 * n` octaves after the loop; octaves `0..n-1`
are the empty ones of the construction, and the fields of the DoG levels sit in
octaves `n..2n-1`, one per level. -/
theorem fieldOctaves_doubled (env : Env) (dogs_pyr : List (List Mat)) :
    ((fieldOctaves env dogs_pyr (FieldPyramids.init dogs_pyr.length)).dx_pyr.length =
        2 * dogs_pyr.length ∧
      (fieldOctaves env dogs_pyr (FieldPyramids.init dogs_pyr.length)).dy_pyr.length =
        2 * dogs_pyr.length ∧
      (fieldOctaves env dogs_pyr (FieldPyramids.init dogs_pyr.length)).mags_pyr.length =
        2 * dogs_pyr.length ∧
      (fieldOctaves env dogs_pyr (FieldPyramids.init dogs_pyr.length)).angles_pyr.length =
        2 * dogs_pyr.length) ∧
    ((fieldOctaves env dogs_pyr (FieldPyramids.init dogs_pyr.length)).mags_pyr.take
        dogs_pyr.length = List.replicate dogs_pyr.length [] ∧
      (fieldOctaves env dogs_pyr (FieldPyramids.init dogs_pyr.length)).angles_pyr.take
        dogs_pyr.length = List.replicate dogs_pyr.length []) ∧
    (((fieldOctaves env dogs_pyr (FieldPyramids.init dogs_pyr.length)).mags_pyr.drop
        dogs_pyr.length).map List.length = dogs_pyr.map List.length ∧
      ((fieldOctaves env dogs_pyr (FieldPyramids.init dogs_pyr.length)).angles_pyr.drop
        dogs_pyr.length).map List.length = dogs_pyr.map List.length) := by
  obtain ⟨hm, ha, hx, hy⟩ := fieldOctaves_append env dogs_pyr (FieldPyramids.init dogs_pyr.length)
  have hlen : ∀ dogs : List Mat,
      (fieldLevels env dogs ⟨[], [], [], []⟩).mags.length = dogs.length ∧
      (fieldLevels env dogs ⟨[], [], [], []⟩).angles.length = dogs.length := by
    intro dogs
    obtain ⟨_, _, h3, h4⟩ := fieldLevels_length env dogs ⟨[], [], [], []⟩
    simp only [List.length_nil, Nat.zero_add] at h3 h4
    exact ⟨h3, h4⟩
  rw [hm, ha, hx, hy]
  simp only [FieldPyramids.init]
  refine ⟨⟨?_, ?_, ?_, ?_⟩, ⟨?_, ?_⟩, ⟨?_, ?_⟩⟩
  · simp; omega
  · simp; omega
  · simp; omega
  · simp; omega
  · rw [List.take_left' (by simp)]
  · rw [List.take_left' (by simp)]
  · rw [List.drop_left' (by simp), List.map_map]
    exact List.map_congr_left (fun dogs _ => (hlen dogs).1)
  · rw [List.drop_left' (by simp), List.map_map]
    exact List.map_congr_left (fun dogs _ => (hlen dogs).2)

/-- C19 (counterexample): in an image without samples there is no in-bounds pixel,
so every read at an in-bounds pixel is in bounds, yet the image is not a square
of side at least 2. -/
theorem readsInBounds_empty_image :
    readsInBounds ⟨0, 0, fun _ _ => 0⟩ ∧
      ¬ ((⟨0, 0, fun _ _ => 0⟩ : Mat).rows = (⟨0, 0, fun _ _ => 0⟩ : Mat).cols ∧
        2 ≤ (⟨0, 0, fun _ _ => 0⟩ : Mat).rows) := by
  constructor
  · intro x y hx0 hx1 _ _
    simp only [Nat.cast_zero] at hx1
    omega
  · simp

/-- C19 (amended): for an image with at least one sample, `delta_x` and `delta_y` read
only in-bounds samples at every in-bounds pixel if and only if the image is
square with side at least 2. -/
theorem readsInBounds_iff_square (image : Mat) (hr : 0 < image.rows) (hc : 0 < image.cols) :
    readsInBounds image ↔ (image.rows = image.cols ∧ 2 ≤ image.rows) := by
  constructor
  · intro h
    have h00 := h 0 0 (le_refl 0) (by omega) (le_refl 0) (by omega)
    have hlast := (h ((image.rows : Int) - 1) 0 (by omega) (by omega) (le_refl 0) (by omega)).1
    have hlast' := (h 0 ((image.cols : Int) - 1) (le_refl 0) (by omega) (by omega) (by omega)).2
    rw [delta_x_eq, delta_isSome] at h00 hlast
    rw [delta_y_eq, delta_isSome] at h00 hlast'
    unfold afterIndex beforeIndex at h00 hlast hlast'
    obtain ⟨⟨hx1, -⟩, ⟨hy1, -⟩⟩ := h00
    simp only [lt_irrefl, if_false] at hx1 hy1
    have hrows2 : 2 ≤ image.rows := by omega
    have hcols2 : 2 ≤ image.cols := by omega
    refine ⟨?_, hrows2⟩
    by_contra hne
    rcases Nat.lt_or_gt_of_ne hne with hlt | hgt
    · obtain ⟨-, ⟨-, hafter, -⟩⟩ := hlast
      rw [if_pos (by omega)] at hafter
      omega
    · obtain ⟨-, ⟨-, -, -, hafter⟩⟩ := hlast'
      rw [if_pos (by omega)] at hafter
      omega
  · rintro ⟨heq, h2⟩ x y hx0 hx1 hy0 hy1
    have heq' : (image.rows : Int) = image.cols := by exact_mod_cast heq
    rw [delta_x_eq, delta_y_eq, delta_isSome, delta_isSome]
    unfold afterIndex beforeIndex
    refine ⟨⟨⟨?_, ?_, hy0, hy1⟩, ⟨?_, ?_, hy0, hy1⟩⟩, ⟨⟨hx0, hx1, ?_, ?_⟩, ⟨hx0, hx1, ?_, ?_⟩⟩⟩ <;>
      split <;> omega

/-- Witness of C19 (amended): the 3 x 3 ramp is square with side 3. -/
theorem readsInBounds_iff_square_witness :
    0 < (rampMat 1).rows ∧ 0 < (rampMat 1).cols ∧
      (readsInBounds (rampMat 1) ↔ ((rampMat 1).rows = (rampMat 1).cols ∧ 2 ≤ (rampMat 1).rows)) :=
  ⟨by decide, by decide, readsInBounds_iff_square (rampMat 1) (by decide) (by decide)⟩
/-- C20 (counterexample): at `dx = -1`, `dy = 0` the angle is not below 270 and its
bucket index is 27, outside `9..26` (`atan` is the identity here). -/
theorem angleOf_reaches_270 :
    ¬ (angleOf (fun q => q) (-1) 0 < 270) ∧ binIndex (angleOf (fun q => q) (-1) 0) = 27 := by
  rw [angleOf_neg_zero]
  refine ⟨by norm_num, ?_⟩
  have h : ((270 : ℚ) / 10) = ((27 : Int) : ℚ) := by norm_num
  simp only [binIndex, truncToInt, h]
  simp

/-- C20 (amended): with an `atan` that has the sign of its argument, the angle
function never returns a value below 90 or above 270, the bucket index of the
angle is one of 9, ..., 27, and the angle is 270 whenever `dy = 0` and `dx < 0`. -/
theorem angleOf_bins_9_to_27 (atan : ℚ → ℚ) (hneg : ∀ q : ℚ, q < 0 → atan q < 0)
    (hpos : ∀ q : ℚ, 0 ≤ q → 0 ≤ atan q) (hzero : atan 0 = 0) (dx dy : ℚ) :
    (90 ≤ angleOf atan dx dy ∧ angleOf atan dx dy ≤ 270) ∧
      (9 ≤ binIndex (angleOf atan dx dy) ∧ binIndex (angleOf atan dx dy) ≤ 27) ∧
      (dx < 0 → angleOf atan dx 0 = 270) := by
  obtain ⟨h0, h1⟩ := angleOf_quadrants atan hneg hpos hzero dx dy
  exact ⟨⟨h0, h1⟩, binIndex_quadrants _ h0 h1, angleOf_zero_dy_neg_dx atan hzero dx⟩

/-- Witness of C20 (amended): `atan` replaced by the identity, at `dx = -2`, `dy = 1`. -/
theorem angleOf_bins_9_to_27_witness :
    (∀ q : ℚ, q < 0 → (fun q : ℚ => q) q < 0) ∧ (∀ q : ℚ, 0 ≤ q → 0 ≤ (fun q : ℚ => q) q) ∧
      (fun q : ℚ => q) 0 = 0 ∧
      (90 ≤ angleOf (fun q => q) (-2) 1 ∧ angleOf (fun q => q) (-2) 1 ≤ 270) ∧
      (9 ≤ binIndex (angleOf (fun q => q) (-2) 1) ∧
        binIndex (angleOf (fun q => q) (-2) 1) ≤ 27) ∧
      ((-2 : ℚ) < 0 → angleOf (fun q => q) (-2) 0 = 270) :=
  ⟨fun _ h => h, fun _ h => h, rfl,
    angleOf_bins_9_to_27 (fun q => q) (fun _ h => h) (fun _ h => h) rfl (-2) 1⟩

end sift
